import Mathlib

/-!  Verification of the SOLE proof-of-authority ledger node (Go sources).

The Go sources are shallowly embedded: Go byte slices (and Go strings, which
are byte strings) become `List Nat` with entries below 256; `int`/`int64`
become `Int`; fallible operations (including `log.Panic`, runtime panics and
`os.Exit`) surface in the result types.  External library primitives
(crypto/sha256, ripemd160, crypto/ecdsa, encoding/gob) are parameters of the
embedding, bundled in `CryptoPrims` and `GobPrims`; every repository function
is translated faithfully from its Go source.  Key-value state (BadgerDB) is
modelled as association lists keyed by byte strings. -/

namespace Sole

/-- Bytes of a Go string literal (Go strings are immutable byte strings).
Every string literal of the embedded sources is ASCII, so its UTF-8 bytes
are exactly the character code points. -/
def strBytes (s : String) : List Nat := s.data.map Char.toNat

/-- Every entry of the list is a byte value (below 256). -/
def isBytes (l : List Nat) : Prop := ∀ b ∈ l, b < 256

instance (l : List Nat) : Decidable (isBytes l) :=
  inferInstanceAs (Decidable (∀ b ∈ l, b < 256))

/-- big.Int.SetBytes: interpret a byte slice as a big-endian unsigned integer. -/
def natOfBytes (l : List Nat) : Nat := l.foldl (fun a b => a * 256 + b) 0

/-- Structural helper for `minBytes`: the first argument is fuel, adequate
whenever it bounds the value. -/
def minBytesF : Nat → Nat → List Nat
  | _, 0 => []
  | 0, _ + 1 => []
  | f + 1, n + 1 => minBytesF f ((n + 1) / 256) ++ [(n + 1) % 256]

/-- big.Int.Bytes: the minimal big-endian byte representation (empty for zero). -/
def minBytes (n : Nat) : List Nat := minBytesF n n

theorem minBytesF_zero (f : Nat) : minBytesF f 0 = [] := by cases f <;> rfl

theorem minBytesF_congr : ∀ f g n, n ≤ f → n ≤ g → minBytesF f n = minBytesF g n := by
  intro f
  induction f with
  | zero =>
    intro g n hf _
    have : n = 0 := by omega
    subst this
    rw [minBytesF_zero, minBytesF_zero]
  | succ f ih =>
    intro g n hf hg
    cases n with
    | zero => rw [minBytesF_zero, minBytesF_zero]
    | succ n =>
      cases g with
      | zero => omega
      | succ g =>
        show minBytesF f ((n + 1) / 256) ++ [(n + 1) % 256] =
          minBytesF g ((n + 1) / 256) ++ [(n + 1) % 256]
        rw [ih g ((n + 1) / 256) (by omega) (by omega)]

/-- binary.Write BigEndian of an int64: 8-byte big-endian two's complement. -/
def i64encode (v : Int) : List Nat :=
  let n := (v % (18446744073709551616 : Int)).toNat
  [n / 72057594037927936 % 256, n / 281474976710656 % 256,
   n / 1099511627776 % 256, n / 4294967296 % 256,
   n / 16777216 % 256, n / 65536 % 256, n / 256 % 256, n % 256]

/-- binary.Read BigEndian into an int64: big-endian bytes as a signed value. -/
def i64ofBytes (l : List Nat) : Int :=
  let n := natOfBytes l
  if n < 9223372036854775808 then (n : Int) else (n : Int) - 18446744073709551616

/-- The value fits in a Go int64. -/
def i64Range (v : Int) : Prop :=
  -9223372036854775808 ≤ v ∧ v < 9223372036854775808

instance (v : Int) : Decidable (i64Range v) := inferInstanceAs (Decidable (_ ∧ _))

/-- hex digit characters, as produced by hex.EncodeToString (lowercase). -/
def hexDigitChar (d : Nat) : Nat := if d < 10 then 48 + d else 87 + d

/-- hex.EncodeToString: two lowercase hex digits per byte, as string bytes. -/
def hexEncode (l : List Nat) : List Nat :=
  l.flatMap (fun b => [hexDigitChar (b / 16), hexDigitChar (b % 16)])

/-- value of one hex digit character (hex.DecodeString accepts both cases). -/
def hexDigitVal (c : Nat) : Option Nat :=
  if 48 ≤ c ∧ c ≤ 57 then some (c - 48)
  else if 97 ≤ c ∧ c ≤ 102 then some (c - 87)
  else if 65 ≤ c ∧ c ≤ 70 then some (c - 55)
  else none

/-- hex.DecodeString: pairs of hex digits; `none` on odd length or bad digit. -/
def hexDecode : List Nat → Option (List Nat)
  | [] => some []
  | [_] => none
  | c1 :: c2 :: rest =>
    match hexDigitVal c1, hexDigitVal c2, hexDecode rest with
    | some d1, some d2, some bs => some ((d1 * 16 + d2) :: bs)
    | _, _, _ => none

theorem hexDigit_roundtrip : ∀ d < 16, hexDigitVal (hexDigitChar d) = some d := by
  decide

theorem hexDecode_hexEncode (l : List Nat) (h : isBytes l) :
    hexDecode (hexEncode l) = some l := by
  induction l with
  | nil => rfl
  | cons b rest ih =>
    have hb : b < 256 := h b (List.mem_cons_self ..)
    have h1 : hexDigitVal (hexDigitChar (b / 16)) = some (b / 16) :=
      hexDigit_roundtrip _ (by omega)
    have h2 : hexDigitVal (hexDigitChar (b % 16)) = some (b % 16) :=
      hexDigit_roundtrip _ (by omega)
    have hr : hexDecode (hexEncode rest) = some rest :=
      ih (fun x hx => h x (List.mem_cons_of_mem _ hx))
    simp only [hexEncode, List.flatMap_cons] at hr ⊢
    simp [hexDecode, h1, h2, hr]
    omega

theorem natOfBytes_nil : natOfBytes [] = 0 := rfl

theorem foldl_byte_ge (l : List Nat) (a : Nat) :
    a ≤ l.foldl (fun a b => a * 256 + b) a := by
  induction l generalizing a with
  | nil => simp
  | cons b rest ih =>
    simp only [List.foldl_cons]
    calc a ≤ a * 256 + b := by nlinarith
    _ ≤ _ := ih _

theorem natOfBytes_cons (b : Nat) (l : List Nat) :
    natOfBytes (b :: l) = l.foldl (fun a b => a * 256 + b) b := by
  simp [natOfBytes]

theorem natOfBytes_pos (b : Nat) (l : List Nat) (hb : b ≠ 0) :
    0 < natOfBytes (b :: l) := by
  have := foldl_byte_ge l b
  rw [natOfBytes_cons]
  omega

theorem natOfBytes_append_singleton (l : List Nat) (b : Nat) :
    natOfBytes (l ++ [b]) = 256 * natOfBytes l + b := by
  simp [natOfBytes, List.foldl_append]
  ring

theorem natOfBytes_leadzero (l : List Nat) :
    natOfBytes (0 :: l) = natOfBytes l := by
  simp [natOfBytes]

theorem minBytes_zero : minBytes 0 = [] := rfl

theorem minBytes_succ (n : Nat) :
    minBytes (n + 1) = minBytes ((n + 1) / 256) ++ [(n + 1) % 256] := by
  show minBytesF (n + 1) (n + 1) = minBytesF ((n + 1) / 256) ((n + 1) / 256) ++ [(n + 1) % 256]
  have h1 : minBytesF (n + 1) (n + 1) = minBytesF n ((n + 1) / 256) ++ [(n + 1) % 256] := rfl
  rw [h1, minBytesF_congr n ((n + 1) / 256) ((n + 1) / 256) (by omega) le_rfl]

/-- `minBytes` recovers a byte list whose first byte is nonzero. -/
theorem minBytes_natOfBytes (l : List Nat) (hb : isBytes l)
    (hh : ∀ x, l.head? = some x → x ≠ 0) :
    minBytes (natOfBytes l) = l := by
  induction l using List.reverseRecOn with
  | nil => simp [natOfBytes_nil, minBytes_zero]
  | append_singleton xs b ih =>
    have hbb : b < 256 := hb b (by simp)
    rw [natOfBytes_append_singleton]
    rcases xs with _ | ⟨x, rest⟩
    · simp only [natOfBytes_nil, Nat.mul_zero, Nat.zero_add]
      have hbne : b ≠ 0 := hh b (by simp)
      rcases b with _ | b
      · omega
      · rw [minBytes_succ]
        have h0 : (b + 1) / 256 = 0 := by omega
        have h1 : (b + 1) % 256 = b + 1 := by omega
        rw [h0, h1, minBytes_zero, List.nil_append]
    · have hx : x ≠ 0 := hh x (by simp)
      have hpos : 0 < natOfBytes (x :: rest) := natOfBytes_pos x rest hx
      have hxs : minBytes (natOfBytes (x :: rest)) = x :: rest :=
        ih (fun y hy => hb y (List.mem_append_left _ hy)) (by simpa using hh x)
      rcases hn : 256 * natOfBytes (x :: rest) + b with _ | n
      · omega
      · rw [← hn, hn, minBytes_succ, ← hn]
        have hdiv : (256 * natOfBytes (x :: rest) + b) / 256 = natOfBytes (x :: rest) := by
          omega
        have hmod : (256 * natOfBytes (x :: rest) + b) % 256 = b := by
          omega
        rw [hdiv, hmod, hxs]

theorem natOfBytes_i64encode (v : Int) :
    natOfBytes (i64encode v) = (v % 18446744073709551616).toNat := by
  have h1 : 0 ≤ v % 18446744073709551616 := Int.emod_nonneg v (by norm_num)
  have h2 : v % 18446744073709551616 < 18446744073709551616 :=
    Int.emod_lt_of_pos v (by norm_num)
  simp only [i64encode, natOfBytes, List.foldl]
  omega

theorem i64_roundtrip (v : Int) (h : i64Range v) : i64ofBytes (i64encode v) = v := by
  obtain ⟨h1, h2⟩ := h
  have e1 : 0 ≤ v % 18446744073709551616 := Int.emod_nonneg v (by norm_num)
  have e2 : v % 18446744073709551616 < 18446744073709551616 :=
    Int.emod_lt_of_pos v (by norm_num)
  simp only [i64ofBytes, natOfBytes_i64encode]
  split <;> omega

theorem i64encode_length (v : Int) : (i64encode v).length = 8 := by
  simp [i64encode]

theorem i64encode_isBytes (v : Int) : isBytes (i64encode v) := by
  simp only [i64encode, isBytes]
  intro b hb
  simp only [List.mem_cons, List.not_mem_nil, or_false] at hb
  rcases hb with h | h | h | h | h | h | h | h <;> omega

/-- The Base58 alphabet of part_004 (as string bytes). -/
def b58Alphabet : List Nat :=
  strBytes "123456789ABCDEFGHJKLMNPQRSTUVWXYZabcdefghijkmnopqrstuvwxyz"

/-- Structural helper for `b58DigitsLE` (fuel-indexed). -/
def b58DigitsF : Nat → Nat → List Nat
  | _, 0 => []
  | 0, _ + 1 => []
  | f + 1, n + 1 => b58Alphabet.getD ((n + 1) % 58) 0 :: b58DigitsF f ((n + 1) / 58)

/-- The DivMod loop of Base58Encode: little-endian base-58 digit characters. -/
def b58DigitsLE (n : Nat) : List Nat := b58DigitsF n n

theorem b58DigitsF_zero (f : Nat) : b58DigitsF f 0 = [] := by cases f <;> rfl

theorem b58DigitsF_congr : ∀ f g n, n ≤ f → n ≤ g → b58DigitsF f n = b58DigitsF g n := by
  intro f
  induction f with
  | zero =>
    intro g n hf _
    have : n = 0 := by omega
    subst this
    rw [b58DigitsF_zero, b58DigitsF_zero]
  | succ f ih =>
    intro g n hf hg
    cases n with
    | zero => rw [b58DigitsF_zero, b58DigitsF_zero]
    | succ n =>
      cases g with
      | zero => omega
      | succ g =>
        show b58Alphabet.getD ((n + 1) % 58) 0 :: b58DigitsF f ((n + 1) / 58) =
          b58Alphabet.getD ((n + 1) % 58) 0 :: b58DigitsF g ((n + 1) / 58)
        rw [ih g ((n + 1) / 58) (by omega) (by omega)]

theorem b58DigitsLE_succ (n : Nat) :
    b58DigitsLE (n + 1) = b58Alphabet.getD ((n + 1) % 58) 0 :: b58DigitsLE ((n + 1) / 58) := by
  show b58DigitsF (n + 1) (n + 1) = b58Alphabet.getD ((n + 1) % 58) 0 ::
    b58DigitsF ((n + 1) / 58) ((n + 1) / 58)
  have h1 : b58DigitsF (n + 1) (n + 1) =
      b58Alphabet.getD ((n + 1) % 58) 0 :: b58DigitsF n ((n + 1) / 58) := rfl
  rw [h1, b58DigitsF_congr n ((n + 1) / 58) ((n + 1) / 58) (by omega) le_rfl]

/-- The leading-0x00 counting loop of Base58Encode. -/
def countLeadingZeroBytes : List Nat → Nat
  | [] => 0
  | b :: rest => if b = 0 then countLeadingZeroBytes rest + 1 else 0

/-- Base58Encode (part_004): base-58 digits of the big-endian value, one
leading alphabet-zero character per leading zero byte of the input. -/
def Base58Encode (input : List Nat) : List Nat :=
  List.replicate (countLeadingZeroBytes input) (b58Alphabet.getD 0 0) ++
    (b58DigitsLE (natOfBytes input)).reverse

/-- The inner scan of Base58Decode: index of a character in the alphabet. -/
def b58CharIndex (b : Nat) : Option Nat := b58Alphabet.findIdx? (fun c => c == b)

/-- The accumulation loop of Base58Decode; `none` on an invalid character. -/
def b58ValueLoop : List Nat → Nat → Option Nat
  | [], acc => some acc
  | b :: rest, acc =>
    match b58CharIndex b with
    | none => none
    | some i => b58ValueLoop rest (acc * 58 + i)

/-- The leading alphabet-zero counting loop of Base58Decode. -/
def countLeadingAlpha0 : List Nat → Nat
  | [] => 0
  | b :: rest => if b = b58Alphabet.getD 0 0 then countLeadingAlpha0 rest + 1 else 0

/-- Base58Decode (part_004): errors on an invalid character, maps each
leading alphabet-zero character back to a zero byte. -/
def Base58Decode (input : List Nat) : Option (List Nat) :=
  let zeroBytes := countLeadingAlpha0 input
  match b58ValueLoop (input.drop zeroBytes) 0 with
  | none => none
  | some x => some (List.replicate zeroBytes 0 ++ minBytes x)

theorem b58CharIndex_alphabet : ∀ d < 58, b58CharIndex (b58Alphabet.getD d 0) = some d := by
  decide

theorem b58digit_ne_alpha0 : ∀ d, 1 ≤ d → d < 58 →
    b58Alphabet.getD d 0 ≠ b58Alphabet.getD 0 0 := by
  decide

theorem b58ValueLoop_append (xs ys : List Nat) (a : Nat) :
    b58ValueLoop (xs ++ ys) a =
      match b58ValueLoop xs a with
      | none => none
      | some m => b58ValueLoop ys m := by
  induction xs generalizing a with
  | nil => simp [b58ValueLoop]
  | cons b rest ih =>
    simp only [List.cons_append, b58ValueLoop]
    cases b58CharIndex b with
    | none => rfl
    | some i => exact ih _

theorem b58DigitsLE_zero : b58DigitsLE 0 = [] := rfl

theorem b58DigitsLE_eq_nil (n : Nat) : b58DigitsLE n = [] ↔ n = 0 := by
  constructor
  · intro h
    cases n with
    | zero => rfl
    | succ m => rw [b58DigitsLE_succ] at h; cases h
  · rintro rfl; exact b58DigitsLE_zero

theorem b58ValueLoop_digits (n : Nat) :
    ∀ a, b58ValueLoop ((b58DigitsLE n).reverse) a =
      some (a * 58 ^ (b58DigitsLE n).length + n) := by
  induction n using Nat.strong_induction_on with
  | _ n ih =>
    match n with
    | 0 => intro a; simp [b58DigitsLE, b58DigitsF, b58ValueLoop]
    | m + 1 =>
      intro a
      rw [b58DigitsLE_succ]
      have hlt : (m + 1) / 58 < m + 1 := Nat.div_lt_self (Nat.succ_pos m) (by omega)
      simp only [List.reverse_cons, List.length_cons]
      rw [b58ValueLoop_append, ih _ hlt]
      simp only [b58ValueLoop]
      rw [b58CharIndex_alphabet _ (Nat.mod_lt _ (by omega))]
      simp only [b58ValueLoop]
      congr 1
      have := Nat.div_add_mod (m + 1) 58
      ring_nf
      omega

theorem b58DigitsLE_getLast (n : Nat) :
    ∀ x, (b58DigitsLE n).getLast? = some x → x ≠ b58Alphabet.getD 0 0 := by
  induction n using Nat.strong_induction_on with
  | _ n ih =>
    match n with
    | 0 => intro x hx; rw [b58DigitsLE_zero] at hx; cases hx
    | m + 1 =>
      intro x hx
      rw [b58DigitsLE_succ] at hx
      by_cases hq : (m + 1) / 58 = 0
      · have hd : b58DigitsLE ((m + 1) / 58) = [] := by rw [hq]; exact b58DigitsLE_zero
        rw [hd, List.getLast?_singleton] at hx
        have hmod : (m + 1) % 58 = m + 1 := by omega
        cases hx
        exact b58digit_ne_alpha0 _ (by omega) (by rw [hmod]; omega)
      · have hne : b58DigitsLE ((m + 1) / 58) ≠ [] :=
          fun h => hq ((b58DigitsLE_eq_nil _).mp h)
        obtain ⟨y, ys, hys⟩ := List.exists_cons_of_ne_nil hne
        rw [hys, List.getLast?_cons_cons] at hx
        refine ih ((m + 1) / 58) (Nat.div_lt_self (Nat.succ_pos m) (by omega)) x ?_
        rw [hys]
        exact hx

theorem natOfBytes_replicate_zero (k : Nat) (m : List Nat) :
    natOfBytes (List.replicate k 0 ++ m) = natOfBytes m := by
  induction k with
  | zero => simp
  | succ j ih => simpa [List.replicate_succ, natOfBytes_leadzero] using ih

theorem replicate_leading_zeros (l : List Nat) :
    List.replicate (countLeadingZeroBytes l) 0 ++ l.drop (countLeadingZeroBytes l) = l := by
  induction l with
  | nil => rfl
  | cons b rest ih =>
    by_cases hb : b = 0
    · subst hb
      simp only [countLeadingZeroBytes, if_pos rfl]
      simpa [List.replicate_succ] using ih
    · simp [countLeadingZeroBytes, hb]

theorem drop_leading_zeros_head (l : List Nat) :
    ∀ x, (l.drop (countLeadingZeroBytes l)).head? = some x → x ≠ 0 := by
  induction l with
  | nil => intro x hx; cases hx
  | cons b rest ih =>
    by_cases hb : b = 0
    · subst hb
      simpa only [countLeadingZeroBytes, if_pos rfl, List.drop_succ_cons] using ih
    · intro x hx
      simp only [countLeadingZeroBytes, if_neg hb, List.drop_zero, List.head?_cons] at hx
      cases hx
      exact hb

theorem countLeadingAlpha0_prefix (k : Nat) (R : List Nat)
    (hR : ∀ x, R.head? = some x → x ≠ b58Alphabet.getD 0 0) :
    countLeadingAlpha0 (List.replicate k (b58Alphabet.getD 0 0) ++ R) = k := by
  induction k with
  | zero =>
    cases R with
    | nil => rfl
    | cons b rest =>
      simp only [List.replicate, List.nil_append, countLeadingAlpha0]
      rw [if_neg (hR b rfl)]
  | succ j ih =>
    simpa [List.replicate_succ, countLeadingAlpha0] using ih

/-- Round trip of the Base58 codec: decoding an encoding recovers the bytes. -/
theorem Base58Decode_Base58Encode (l : List Nat) (hb : isBytes l) :
    Base58Decode (Base58Encode l) = some l := by
  set z := countLeadingZeroBytes l with hz
  set R := (b58DigitsLE (natOfBytes l)).reverse with hR
  have hhead : ∀ x, R.head? = some x → x ≠ b58Alphabet.getD 0 0 := by
    intro x hx
    rw [hR, List.head?_reverse] at hx
    exact b58DigitsLE_getLast _ x hx
  have hcount : countLeadingAlpha0 (Base58Encode l) = z := by
    unfold Base58Encode
    rw [← hz, ← hR]
    exact countLeadingAlpha0_prefix z R hhead
  have hdrop : (Base58Encode l).drop z = R := by
    unfold Base58Encode
    rw [← hz, ← hR]
    have h := List.drop_left (List.replicate z (b58Alphabet.getD 0 0)) R
    rwa [List.length_replicate] at h
  have hval : b58ValueLoop R 0 = some (natOfBytes l) := by
    rw [hR]
    simpa using b58ValueLoop_digits (natOfBytes l) 0
  have hmin : minBytes (natOfBytes l) = l.drop z := by
    have h1 : natOfBytes l = natOfBytes (l.drop z) := by
      conv_lhs => rw [← replicate_leading_zeros l, ← hz]
      exact natOfBytes_replicate_zero _ _
    rw [h1]
    refine minBytes_natOfBytes _ (fun x hx => hb x (List.mem_of_mem_drop hx)) ?_
    rw [hz]
    exact drop_leading_zeros_head l
  rw [Base58Decode, hcount, hdrop, hval]
  simp only [hmin]
  rw [hz, replicate_leading_zeros l]

/-- External cryptographic primitives used by the sources: crypto/sha256,
golang.org/x/crypto/ripemd160, and crypto/ecdsa over P-256.  `ecdsaVerify`
takes the public key coordinates, the digest and (r, s); `ecdsaSign` takes
the private scalar and the digest and returns (r, s) (the randomness of
ecdsa.Sign is folded into the oracle). -/
structure CryptoPrims where
  sha256 : List Nat → List Nat
  ripemd160 : List Nat → List Nat
  ecdsaVerify : Nat → Nat → List Nat → Nat → Nat → Bool
  ecdsaSign : Nat → List Nat → Nat × Nat

/-- The documented interface of a hash oracle: 32-byte digests. -/
def GoodSha (f : List Nat → List Nat) : Prop := ∀ x, isBytes (f x) ∧ (f x).length = 32

/-- TxOutput (transaction.go). -/
structure TxOutput where
  value : Int
  pubKeyHash : List Nat
deriving DecidableEq, Repr

/-- TxInput (transaction.go).  `vout` is the Go `Vout int` field. -/
structure TxInput where
  txid : List Nat
  vout : Int
  signature : List Nat
  pubKey : List Nat
deriving DecidableEq, Repr

/-- Transaction (transaction.go).  Go nil slices and empty slices are both
modelled as `[]`. -/
structure Transaction where
  id : List Nat
  vin : List TxInput
  vout : List TxOutput
  timestamp : Int
deriving DecidableEq, Repr

/-- TxOutputs (transaction.go): the collection stored per UTXO key. -/
structure TxOutputs where
  outputs : List TxOutput
deriving DecidableEq, Repr

/-- HashPubKey (wallet.go): RIPEMD160 of SHA256 of the public key bytes. -/
def HashPubKey (p : CryptoPrims) (pubKey : List Nat) : List Nat :=
  p.ripemd160 (p.sha256 pubKey)

/-- checksum (part_004): first four bytes of the double SHA256. -/
def checksum (p : CryptoPrims) (payload : List Nat) : List Nat :=
  (p.sha256 (p.sha256 payload)).take 4

/-- Go slice expression l[lo:hi]; `none` models the runtime panic when the
bounds are invalid. -/
def goSlice (l : List Nat) (lo hi : Int) : Option (List Nat) :=
  if 0 ≤ lo ∧ lo ≤ hi ∧ hi ≤ (l.length : Int) then
    some ((l.take hi.toNat).drop lo.toNat)
  else none

/-- Go index expression l[i]; `none` models the runtime panic. -/
def goIndex {α : Type} (l : List α) (i : Int) : Option α :=
  if 0 ≤ i then l[i.toNat]? else none

/-- TxOutput.Lock (transaction.go): decode the address, strip version and
checksum.  `none` models log.Panic on a bad address or the slice panic. -/
def TxOutput.Lock (out : TxOutput) (address : List Nat) : Option TxOutput :=
  match Base58Decode address with
  | none => none
  | some pkh =>
    match goSlice pkh 1 ((pkh.length : Int) - 4) with
    | none => none
    | some stripped => some { out with pubKeyHash := stripped }

/-- NewTxOutput (transaction.go). -/
def NewTxOutput (value : Int) (address : List Nat) : Option TxOutput :=
  TxOutput.Lock ⟨value, []⟩ address

/-- TxOutput.IsLockedWithKey (transaction.go). -/
def TxOutput.IsLockedWithKey (out : TxOutput) (pubKeyHash : List Nat) : Bool :=
  out.pubKeyHash = pubKeyHash

/-- TxInput.UsesKey (transaction.go). -/
def TxInput.UsesKey (p : CryptoPrims) (vin : TxInput) (pubKeyHash : List Nat) : Bool :=
  HashPubKey p vin.pubKey = pubKeyHash

/-- One input of the transport encoding (Transaction.Serialize). -/
def encodeInput (vin : TxInput) : List Nat :=
  i64encode (vin.txid.length : Int) ++ vin.txid ++ i64encode vin.vout ++
    i64encode (vin.signature.length : Int) ++ vin.signature ++
    i64encode (vin.pubKey.length : Int) ++ vin.pubKey

/-- One output of the transport encoding (Transaction.Serialize). -/
def encodeOutput (o : TxOutput) : List Nat :=
  i64encode o.value ++ i64encode (o.pubKeyHash.length : Int) ++ o.pubKeyHash

/-- Transaction.Serialize (transaction.go): manual big-endian binary
encoding for transport; the id is not written. -/
def Transaction.Serialize (tx : Transaction) : List Nat :=
  i64encode (tx.vin.length : Int) ++ tx.vin.flatMap encodeInput ++
    i64encode (tx.vout.length : Int) ++ tx.vout.flatMap encodeOutput ++
    i64encode tx.timestamp

/-- Transaction.SerializeForHash (transaction.go): the identity preimage. -/
def Transaction.SerializeForHash (tx : Transaction) : List Nat :=
  tx.vin.flatMap (fun vin => vin.txid ++ i64encode vin.vout ++ vin.pubKey ++ vin.signature) ++
    tx.vout.flatMap (fun o => i64encode o.value ++ o.pubKeyHash) ++
    i64encode tx.timestamp

/-- Transaction.Hash (transaction.go): SHA256 of the identity preimage of a
copy whose id is cleared (the id is not part of the preimage). -/
def Transaction.Hash (p : CryptoPrims) (tx : Transaction) : List Nat :=
  let txCopy := { tx with id := [] }
  p.sha256 txCopy.SerializeForHash

/-- Transaction.TrimmedCopy (transaction.go). -/
def Transaction.TrimmedCopy (tx : Transaction) : Transaction :=
  { id := tx.id,
    vin := tx.vin.map (fun vin => ⟨vin.txid, vin.vout, [], []⟩),
    vout := tx.vout.map (fun o => ⟨o.value, o.pubKeyHash⟩),
    timestamp := tx.timestamp }

/-- Transaction.IsCoinbase (transaction.go). -/
def Transaction.IsCoinbase (tx : Transaction) : Bool :=
  match tx.vin with
  | [vin] => vin.txid.length == 0 && vin.vout == -1
  | _ => false

/-- binary.Read of an int64: on short data the bytes are consumed and the
target keeps its zero value (the Go code ignores the error). -/
def readI64 (l : List Nat) : Int × List Nat :=
  if 8 ≤ l.length then (i64ofBytes (l.take 8), l.drop 8) else (0, l.drop 8)

/-- reader.Read into a fresh zeroed buffer of length n: a single Read call
fills at most the remaining bytes; the tail of the buffer stays zero. -/
def readBytes (n : Nat) (l : List Nat) : List Nat × List Nat :=
  (l.take n ++ List.replicate (n - l.length) 0, l.drop n)

/-- The input loop of DeserializeTransaction (transaction.go); `none`
models the runtime panic of make([]byte, negative). -/
def readInputs : Nat → List Nat → Option (List TxInput × List Nat)
  | 0, l => some ([], l)
  | n + 1, l =>
    let r1 := readI64 l
    if r1.1 < 0 then none else
    let r2 := readBytes r1.1.toNat r1.2
    let r3 := readI64 r2.2
    let r4 := readI64 r3.2
    if r4.1 < 0 then none else
    let r5 := readBytes r4.1.toNat r4.2
    let r6 := readI64 r5.2
    if r6.1 < 0 then none else
    let r7 := readBytes r6.1.toNat r6.2
    match readInputs n r7.2 with
    | none => none
    | some (rest, l8) => some (⟨r2.1, r3.1, r5.1, r7.1⟩ :: rest, l8)

/-- The output loop of DeserializeTransaction (transaction.go). -/
def readOutputs : Nat → List Nat → Option (List TxOutput × List Nat)
  | 0, l => some ([], l)
  | n + 1, l =>
    let r1 := readI64 l
    let r2 := readI64 r1.2
    if r2.1 < 0 then none else
    let r3 := readBytes r2.1.toNat r2.2
    match readOutputs n r3.2 with
    | none => none
    | some (rest, l4) => some (⟨r1.1, r3.1⟩ :: rest, l4)

/-- DeserializeTransaction (transaction.go, the manual binary decoder):
reads inputs, outputs and (when bytes remain) the timestamp, then recomputes
the id by hashing. -/
def DeserializeTransaction (p : CryptoPrims) (data : List Nat) : Option Transaction :=
  let r0 := readI64 data
  match readInputs r0.1.toNat r0.2 with
  | none => none
  | some (vin, l2) =>
    let r1 := readI64 l2
    match readOutputs r1.1.toNat r1.2 with
    | none => none
    | some (vout, l4) =>
      let ts := if 0 < l4.length then (readI64 l4).1 else 0
      let tx : Transaction := ⟨[], vin, vout, ts⟩
      some { tx with id := Transaction.Hash p tx }

/-- Go map lookup in a prevTXs map (string key, zero Transaction default). -/
def lookupTx : List (List Nat × Transaction) → List Nat → Transaction
  | [], _ => ⟨[], [], [], 0⟩
  | (k, t) :: rest, key => if k = key then t else lookupTx rest key

/-- big.Int.FillBytes into a fresh buffer of length k; `none` models the
panic when the value does not fit. -/
def fillBytesLen (k : Nat) (n : Nat) : Option (List Nat) :=
  if (minBytes n).length ≤ k then
    some (List.replicate (k - (minBytes n).length) 0 ++ minBytes n)
  else none

/-- The per-input loop of Transaction.Verify (transaction.go), iterating the
enumerated original inputs with the trimmed copy. -/
def verifyInputs (p : CryptoPrims) (txCopy : Transaction)
    (prevTXs : List (List Nat × Transaction)) : List (Nat × TxInput) → Option Bool
  | [] => some true
  | (inID, vin) :: rest =>
    let prevTx := lookupTx prevTXs (hexEncode vin.txid)
    match goIndex prevTx.vout vin.vout with
    | none => none
    | some refOut =>
      let digest := Transaction.Hash p
        { txCopy with vin := txCopy.vin.set inID ⟨vin.txid, vin.vout, [], refOut.pubKeyHash⟩ }
      if HashPubKey p vin.pubKey ≠ refOut.pubKeyHash then some false
      else if vin.signature.length ≠ 64 then some false
      else
        let r := natOfBytes (vin.signature.take 32)
        let s := natOfBytes (vin.signature.drop 32)
        if vin.pubKey.length ≠ 64 then some false
        else
          let x := natOfBytes (vin.pubKey.take 32)
          let y := natOfBytes (vin.pubKey.drop 32)
          if p.ecdsaVerify x y digest r s then verifyInputs p txCopy prevTXs rest
          else some false

/-- Transaction.Verify (transaction.go): `none` models the log.Panic when a
referenced previous transaction is missing (zero value in the map) and the
runtime panic on an out-of-range output index. -/
def Transaction.Verify (p : CryptoPrims) (tx : Transaction)
    (prevTXs : List (List Nat × Transaction)) : Option Bool :=
  if tx.IsCoinbase then some true
  else if tx.vin.any (fun vin => (lookupTx prevTXs (hexEncode vin.txid)).id.isEmpty) then none
  else verifyInputs p tx.TrimmedCopy prevTXs tx.vin.enum

/-- The per-input loop of Transaction.Sign (transaction.go): writes the
64-byte padded (r, s) into each input of the original transaction. -/
def signInputs (p : CryptoPrims) (d : Nat) (txCopy : Transaction)
    (prevTXs : List (List Nat × Transaction)) (tx : Transaction) :
    List (Nat × TxInput) → Option Transaction
  | [] => some tx
  | (inID, vin) :: rest =>
    let prevTx := lookupTx prevTXs (hexEncode vin.txid)
    match goIndex prevTx.vout vin.vout with
    | none => none
    | some refOut =>
      let digest := Transaction.Hash p
        { txCopy with vin := txCopy.vin.set inID ⟨vin.txid, vin.vout, [], refOut.pubKeyHash⟩ }
      let rs := p.ecdsaSign d digest
      match fillBytesLen 32 rs.1, fillBytesLen 32 rs.2 with
      | some rB, some sB =>
        match tx.vin[inID]? with
        | none => none
        | some orig =>
          signInputs p d txCopy prevTXs
            { tx with vin := tx.vin.set inID ⟨orig.txid, orig.vout, rB ++ sB, orig.pubKey⟩ } rest
      | _, _ => none

/-- Transaction.Sign (transaction.go): no-op on a coinbase; log.Panic
(`none`) when a previous transaction is missing. -/
def Transaction.Sign (p : CryptoPrims) (d : Nat) (tx : Transaction)
    (prevTXs : List (List Nat × Transaction)) : Option Transaction :=
  if tx.IsCoinbase then some tx
  else if tx.vin.any (fun vin => (lookupTx prevTXs (hexEncode vin.txid)).id.isEmpty) then none
  else signInputs p d tx.TrimmedCopy prevTXs tx tx.TrimmedCopy.vin.enum

/-- An ECDSA P-256 private key as obtained from x509.ParseECPrivateKey:
the private scalar and the public key coordinates. -/
structure PrivateKey where
  d : Nat
  x : Nat
  y : Nat
deriving DecidableEq, Repr

/-- Wallet (wallet.go); the stored x509 bytes are modelled by their parsed
content, so GetPrivateKey is the `privateKey` projection. -/
structure Wallet where
  privateKey : PrivateKey
  publicKey : List Nat
deriving DecidableEq, Repr

/-- Wallet.GetAddress (wallet.go); version byte 0x00. -/
def Wallet.GetAddress (p : CryptoPrims) (w : Wallet) : List Nat :=
  let pubKeyHash := HashPubKey p w.publicKey
  let versionedPayload := 0 :: pubKeyHash
  Base58Encode (versionedPayload ++ checksum p versionedPayload)

/-- PubKeyHashToAddress (api_server.go). -/
def PubKeyHashToAddress (p : CryptoPrims) (pubKeyHash : List Nat) : List Nat :=
  let versionedPayload := 0 :: pubKeyHash
  Base58Encode (versionedPayload ++ checksum p versionedPayload)

/-- ValidateAddress (wallet.go): log.Panic (`none`) when Base58 decoding
fails; `some false` when the payload is shorter than 4 bytes or the
recomputed checksum mismatches; the slice panic on a 4-byte payload is also
`none`. -/
def ValidateAddress (p : CryptoPrims) (address : List Nat) : Option Bool :=
  match Base58Decode address with
  | none => none
  | some pubKeyHash =>
    if pubKeyHash.length < 4 then some false
    else
      let actualChecksum := pubKeyHash.drop (pubKeyHash.length - 4)
      match pubKeyHash[0]? with
      | none => none
      | some version =>
        match goSlice pubKeyHash 1 ((pubKeyHash.length : Int) - 4) with
        | none => none
        | some stripped =>
          some (actualChecksum = checksum p (version :: stripped))

/-- NewCoinbaseTX (transaction.go).  The default memo is the Sprintf text
"Reward to '<to>'"; byte 39 is the apostrophe of that format string. -/
def NewCoinbaseTX (p : CryptoPrims) (now : Int) (toAddr data : List Nat) (amount : Int) :
    Option Transaction :=
  let memo := if data.length = 0 then strBytes "Reward to " ++ [39] ++ toAddr ++ [39] else data
  match NewTxOutput amount toAddr with
  | none => none
  | some txout =>
    let txin : TxInput := ⟨[], -1, [], memo⟩
    let tx : Transaction := ⟨[], [txin], [txout], now⟩
    some { tx with id := Transaction.Hash p tx }

/-- Block (part_001: the block shape with the PoA nonce). -/
structure Block where
  timestamp : Int
  transactions : List Transaction
  prevBlockHash : List Nat
  hash : List Nat
  height : Int
  nonce : Int
  validator : List Nat
  signature : List Nat
deriving DecidableEq, Repr

/-- One level of the Merkle tree: hash pairs, duplicating an odd last node. -/
def merkleLevel (p : CryptoPrims) : List (List Nat) → List (List Nat)
  | [] => []
  | [x] => [p.sha256 (x ++ x)]
  | x :: y :: rest => p.sha256 (x ++ y) :: merkleLevel p rest

/-- Iterate Merkle levels; the bound is the leaf count, which dominates the
number of levels. -/
def merkleIter (p : CryptoPrims) : Nat → List (List Nat) → List Nat
  | 0, l => l.headD (List.replicate 32 0)
  | f + 1, l =>
    if l.length ≤ 1 then l.headD (List.replicate 32 0)
    else merkleIter p f (merkleLevel p l)

/-- Modelled from the spec: `NewMerkleTree` is called by Block.SetHash
(part_001) but its source file is absent; per the spec the leaves are the
ordered transaction ids, internal nodes are SHA256(left || right), and an
odd level duplicates its last node (empty input gives 32 zero bytes). -/
def merkleRootOf (p : CryptoPrims) (leaves : List (List Nat)) : List Nat :=
  merkleIter p leaves.length leaves

/-- Block.SetHash (part_001): SHA256 over prevHash, Merkle root, big-endian
timestamp, height and nonce, and the validator; signature and hash excluded. -/
def Block.SetHash (p : CryptoPrims) (b : Block) : Block :=
  let txHashes := b.transactions.map (fun tx => tx.id)
  let merkleRoot := if 0 < txHashes.length then merkleRootOf p txHashes else []
  let headers := b.prevBlockHash ++ merkleRoot ++ i64encode b.timestamp ++
    i64encode b.height ++ i64encode b.nonce ++ b.validator
  { b with hash := p.sha256 headers }

/-- NewBlock (part_001): fresh timestamp, zero nonce, hash computed. -/
def NewBlock (p : CryptoPrims) (now : Int) (transactions : List Transaction)
    (prevBlockHash : List Nat) (height : Int) (validator : List Nat) : Block :=
  Block.SetHash p ⟨now, transactions, prevBlockHash, [], height, 0, validator, []⟩

/-- AuthorizedValidators (consensus.go): hex of the 65-byte uncompressed
public keys, as Go string bytes. -/
def AuthorizedValidators : List (List Nat) :=
  [strBytes "0499962080b1c07db1ecb7f2d58978203dfe5eede8e648c3755afed392fec7716d8c7a0fe455d15d64b8dd1363d60c78926e9dce4aad2e08a0006cd50215cb87c3",
   strBytes "046b936a4fc7f0ed3d37eaeb5f95b7cac901c6a3b6c4bbd377fbefa525812a8cc2918d738d3ba24ba5b5368ed6a91f23bda663c9763f8969880df5c9af5451bf4d",
   strBytes "04d6e939245ddd571c20a585020507ec829384a02a27b0d3f3279d44a21d855c49f58644e95ada1046f14999e0e6be831d25b58eae7bfcfba3ba01643a5b771879"]

/-- IsAuthorizedValidator (consensus.go). -/
def IsAuthorizedValidator (pubKeyHex : List Nat) : Bool :=
  AuthorizedValidators.any (fun v => v = pubKeyHex)

/-- GetSignatureBytes (consensus.go): r and s left-padded to 32 bytes each;
`none` models the copy panic when a value exceeds 32 bytes. -/
def GetSignatureBytes (r s : Nat) : Option (List Nat) :=
  if (minBytes r).length ≤ 32 ∧ (minBytes s).length ≤ 32 then
    some ((List.replicate (32 - (minBytes r).length) 0 ++ minBytes r) ++
      (List.replicate (32 - (minBytes s).length) 0 ++ minBytes s))
  else none

/-- SignBlock (consensus.go): ensure the hash is set, sign it, store the
64-byte signature and the raw X||Y validator (FillBytes to 32 bytes each). -/
def SignBlock (p : CryptoPrims) (k : PrivateKey) (b : Block) : Option Block :=
  let b := if b.hash.length = 0 then Block.SetHash p b else b
  let rs := p.ecdsaSign k.d b.hash
  match GetSignatureBytes rs.1 rs.2 with
  | none => none
  | some sig =>
    match fillBytesLen 32 k.x, fillBytesLen 32 k.y with
    | some xB, some yB => some { b with signature := sig, validator := xB ++ yB }
    | _, _ => none

/-- VerifyBlockSignature (consensus.go): signature length check, validator
normalization (64-byte raw gets a 0x04 prefix; 65-byte must begin 0x04),
authorization of the normalized hex, then ECDSA over the block hash. -/
def VerifyBlockSignature (p : CryptoPrims) (b : Block) : Bool :=
  if b.signature.length ≠ 64 then false
  else
    let norm : Option (List Nat × Nat × Nat) :=
      if b.validator.length = 64 then
        some (4 :: b.validator, natOfBytes (b.validator.take 32), natOfBytes (b.validator.drop 32))
      else if b.validator.length = 65 then
        if b.validator.headD 0 ≠ 4 then none
        else some (b.validator, natOfBytes ((b.validator.drop 1).take 32),
          natOfBytes (b.validator.drop 33))
      else none
    match norm with
    | none => false
    | some (pubKeyBytes, x, y) =>
      if ¬ IsAuthorizedValidator (hexEncode pubKeyBytes) then false
      else
        let r := natOfBytes (b.signature.take 32)
        let s := natOfBytes (b.signature.drop 32)
        p.ecdsaVerify x y b.hash r s

/-- DriftTolerance (consensus.go), in seconds. -/
def DriftToleranceSeconds : Int := 60

/-- TargetZeros (consensus.go): leading zero bytes required of a hash. -/
def TargetZeros : Nat := 1

/-- CheckProofOfWork (consensus.go). -/
def CheckProofOfWork (hash : List Nat) : Bool :=
  if hash.length < TargetZeros then false
  else (hash.take TargetZeros).all (fun b => b == 0)

/-- The search loop of MineBlock (consensus.go), with explicit fuel for the
unbounded nonce search; `none` means the fuel ran out. -/
def MineBlockLoop (p : CryptoPrims) : Nat → Block → Option Block
  | 0, _ => none
  | f + 1, b =>
    let b1 := Block.SetHash p b
    if CheckProofOfWork b1.hash then some b1
    else MineBlockLoop p f { b1 with nonce := b1.nonce + 1 }

/-- MineBlock (consensus.go): reset the nonce and search. -/
def MineBlock (p : CryptoPrims) (fuel : Nat) (b : Block) : Option Block :=
  MineBlockLoop p fuel { b with nonce := 0 }

/-- ValidateBlockHeader (consensus.go): strict timestamp monotonicity, drift
bound against the wall clock, symbolic proof of work.  `true` means the nil
error. -/
def ValidateBlockHeader (now : Int) (b prev : Block) : Bool :=
  if b.timestamp ≤ prev.timestamp then false
  else if b.timestamp > now + DriftToleranceSeconds then false
  else if ¬ CheckProofOfWork b.hash then false
  else true

/-- GenesisTimestamp (genesis.go). -/
def GenesisTimestamp : Int := 1768947120

/-- GenesisCoinbaseData (genesis.go). -/
def GenesisCoinbaseData : List Nat := strBytes "Lu sule, lu mare, lu ientu. Unisalento 2026."

/-- GenesisAdminAddress (genesis.go). -/
def GenesisAdminAddress : List Nat := strBytes "1HSYNy8yXUuUZrkBCnzSc34Lqr8soPAKQL"

/-- GenesisReward (genesis.go). -/
def GenesisReward : Int := 5000000

/-- NewGenesisBlock (genesis.go): a coinbase with the fixed literal id
"SOLE_GENESIS_TX_ID", one output of GenesisReward * 10^8 locked to the admin
address, inside a height-0 block with empty prevHash, the placeholder
validator "Genesis" and no signature, then mined. -/
def NewGenesisBlock (p : CryptoPrims) (fuel : Nat) : Option Block :=
  match Base58Decode GenesisAdminAddress with
  | none => none
  | some decoded =>
    match goSlice decoded 1 ((decoded.length : Int) - 4) with
    | none => none
    | some _pubKeyHash =>
      match NewTxOutput (GenesisReward * 100000000) GenesisAdminAddress with
      | none => none
      | some txout =>
        let txin : TxInput := ⟨[], -1, [], GenesisCoinbaseData⟩
        let coinbase : Transaction :=
          ⟨strBytes "SOLE_GENESIS_TX_ID", [txin], [txout], GenesisTimestamp⟩
        let block : Block :=
          ⟨GenesisTimestamp, [coinbase], [], [], 0, 0, strBytes "Genesis", []⟩
        MineBlock p fuel block

/-- Association-list view of a BadgerDB key space (byte-string keys). -/
def lookupKV {α : Type} : List (List Nat × α) → List Nat → Option α
  | [], _ => none
  | (k, v) :: rest, key => if k = key then some v else lookupKV rest key

/-- txn.Set: overwrite the key. -/
def setKV {α : Type} (st : List (List Nat × α)) (key : List Nat) (v : α) :
    List (List Nat × α) :=
  (key, v) :: st.filter (fun kv => !(kv.1 = key : Bool))

/-- txn.Delete. -/
def delKV {α : Type} (st : List (List Nat × α)) (key : List Nat) :
    List (List Nat × α) :=
  st.filter (fun kv => !(kv.1 = key : Bool))

/-- Go map write that keeps first-insertion iteration order (insertion
order stands in for Go's unspecified map iteration order). -/
def putKV {α : Type} : List (List Nat × α) → List Nat → α → List (List Nat × α)
  | [], key, v => [(key, v)]
  | (k, w) :: rest, key, v =>
    if k = key then (k, v) :: rest else (k, w) :: putKV rest key v

/-- Blockchain (part_013): the "lh" key and the hash-keyed block store
(blocks are held structurally; gob de/serialization of stored blocks is the
identity of this view). -/
structure ChainState where
  lastHash : List Nat
  store : List (List Nat × Block)
deriving DecidableEq, Repr

/-- Blockchain.AddBlock (part_013): duplicate short-circuit, PoA signature
verification, then an atomic write of the block; "lh" moves only when the
new height exceeds the tip height.  No header validation is performed.
`none` models log.Panic (tip block missing). -/
def AddBlock (p : CryptoPrims) (chain : ChainState) (b : Block) :
    Option (Bool × ChainState) :=
  match lookupKV chain.store b.hash with
  | some _ => some (false, chain)
  | none =>
    if ¬ VerifyBlockSignature p b then some (false, chain)
    else
      match lookupKV chain.store b.hash with
      | some _ => some (true, chain)
      | none =>
        let store1 := setKV chain.store b.hash b
        match lookupKV store1 chain.lastHash with
        | none => none
        | some lastBlock =>
          if b.height > lastBlock.height then some (true, ⟨b.hash, store1⟩)
          else some (true, ⟨chain.lastHash, store1⟩)

/-- Blockchain.ForgeBlock (part_013): read the tip, build a block at height
tip+1, sign it (no mining, no header validation), write block and "lh". -/
def ForgeBlock (p : CryptoPrims) (now : Int) (chain : ChainState)
    (transactions : List Transaction) (k : PrivateKey) : Option (Block × ChainState) :=
  match lookupKV chain.store chain.lastHash with
  | none => none
  | some lastBlock =>
    let newHeight := lastBlock.height + 1
    let newBlock := NewBlock p now transactions chain.lastHash newHeight []
    match SignBlock p k newBlock with
    | none => none
    | some nb => some (nb, ⟨nb.hash, setKV chain.store nb.hash nb⟩)

/-- Blockchain.FindTransaction (part_013): walk tip to genesis.  Outer
`none` is a panic (missing block) or exhausted fuel; `some none` is the
clean "Transaction does not exist" error. -/
def FindTransaction (store : List (List Nat × Block)) (cur : List Nat)
    (id : List Nat) : Nat → Option (Option Transaction)
  | 0 => none
  | fuel + 1 =>
    match lookupKV store cur with
    | none => none
    | some b =>
      match b.transactions.find? (fun tx => tx.id = id) with
      | some tx => some (some tx)
      | none =>
        if b.prevBlockHash.length = 0 then some none
        else FindTransaction store b.prevBlockHash id fuel

/-- The prevTXs map construction shared by Blockchain.SignTransaction and
Blockchain.VerifyTransaction (part_013); log.Panic (`none`) when an input's
source transaction is not in the chain. -/
def buildPrevTXs (store : List (List Nat × Block)) (cur : List Nat) (fuel : Nat) :
    List TxInput → Option (List (List Nat × Transaction))
  | [] => some []
  | vin :: rest =>
    match FindTransaction store cur vin.txid fuel with
    | none => none
    | some none => none
    | some (some prevTX) =>
      match buildPrevTXs store cur fuel rest with
      | none => none
      | some m => some ((hexEncode prevTX.id, prevTX) :: m)

/-- Blockchain.VerifyTransaction (part_013). -/
def VerifyTransactionChain (p : CryptoPrims) (chain : ChainState)
    (tx : Transaction) (fuel : Nat) : Option Bool :=
  if tx.IsCoinbase then some true
  else
    match buildPrevTXs chain.store chain.lastHash fuel tx.vin with
    | none => none
    | some prevTXs => Transaction.Verify p tx prevTXs

/-- Blockchain.SignTransaction (part_013). -/
def SignTransactionChain (p : CryptoPrims) (chain : ChainState)
    (tx : Transaction) (k : PrivateKey) (fuel : Nat) : Option Transaction :=
  match buildPrevTXs chain.store chain.lastHash fuel tx.vin with
  | none => none
  | some prevTXs => Transaction.Sign p k.d tx prevTXs

/-- The per-transaction body of Blockchain.FindUTXO (part_013): record the
still-unspent outputs, then the spends of a non-coinbase transaction. -/
def findUTXOTx (acc : List (List Nat × TxOutputs) × List (List Nat × List Int))
    (tx : Transaction) :
    List (List Nat × TxOutputs) × List (List Nat × List Int) :=
  let txID := hexEncode tx.id
  let utxo1 := tx.vout.enum.foldl (fun u oi =>
    if ((lookupKV acc.2 txID).getD []).contains (oi.1 : Int) then u
    else putKV u txID ⟨((lookupKV u txID).getD ⟨[]⟩).outputs ++ [oi.2]⟩) acc.1
  let spent1 :=
    if ¬ tx.IsCoinbase then
      tx.vin.foldl (fun s vin =>
        putKV s (hexEncode vin.txid) (((lookupKV s (hexEncode vin.txid)).getD []) ++ [vin.vout])) acc.2
    else acc.2
  (utxo1, spent1)

/-- The block walk of Blockchain.FindUTXO (part_013). -/
def findUTXOLoop (store : List (List Nat × Block)) (cur : List Nat)
    (acc : List (List Nat × TxOutputs) × List (List Nat × List Int)) :
    Nat → Option (List (List Nat × TxOutputs))
  | 0 => none
  | fuel + 1 =>
    match lookupKV store cur with
    | none => none
    | some b =>
      let acc1 := b.transactions.foldl findUTXOTx acc
      if b.prevBlockHash.length = 0 then some acc1.1
      else findUTXOLoop store b.prevBlockHash acc1 fuel

/-- Blockchain.FindUTXO (part_013): hex txid keys to unspent outputs. -/
def FindUTXO (chain : ChainState) (fuel : Nat) :
    Option (List (List Nat × TxOutputs)) :=
  findUTXOLoop chain.store chain.lastHash ([], []) fuel

/-- The utxo- key space prefix (utxo_set.go). -/
def utxoPrefixBytes : List Nat := strBytes "utxo-"

/-- The per-input body of UTXOSet.Update (src/utxo_set.go): the key is the
prefix plus the raw referenced txid; a missing key is ignored; the stored
output list is filtered by position and rewritten, or the key deleted. -/
def utxoUpdateInput (st : List (List Nat × TxOutputs)) (vin : TxInput) :
    List (List Nat × TxOutputs) :=
  let inTxID := utxoPrefixBytes ++ vin.txid
  match lookupKV st inTxID with
  | none => st
  | some outs =>
    let updatedOuts := (outs.outputs.enum.filter
      (fun oi => !((oi.1 : Int) = vin.vout : Bool))).map (fun oi => oi.2)
    if updatedOuts.length = 0 then delKV st inTxID
    else setKV st inTxID ⟨updatedOuts⟩

/-- The per-transaction body of UTXOSet.Update (src/utxo_set.go): process
the inputs of a non-coinbase transaction, then write all outputs of the
transaction under the prefix plus its raw id. -/
def utxoUpdateTx (st : List (List Nat × TxOutputs)) (tx : Transaction) :
    List (List Nat × TxOutputs) :=
  let st1 := if ¬ tx.IsCoinbase then tx.vin.foldl utxoUpdateInput st else st
  setKV st1 (utxoPrefixBytes ++ tx.id) ⟨tx.vout⟩

/-- UTXOSet.Update (src/utxo_set.go). -/
def UTXOUpdate (block : Block) (st : List (List Nat × TxOutputs)) :
    List (List Nat × TxOutputs) :=
  block.transactions.foldl utxoUpdateTx st

/-- UTXOSet.Reindex (src/utxo_set.go): drop the prefix, then write one key
per FindUTXO entry, the prefix plus the hex-decoded txid; log.Panic
(`none`) if a key fails to hex-decode. -/
def UTXOReindex (chain : ChainState) (fuel : Nat) :
    Option (List (List Nat × TxOutputs)) :=
  match FindUTXO chain fuel with
  | none => none
  | some utxo =>
    utxo.foldlM (fun st e =>
      (hexDecode e.1).map (fun key => setKV st (utxoPrefixBytes ++ key) e.2)) []

/-- The iteration of UTXOSet.FindSpendableOutputs (src/utxo_set.go) over
the prefixed key space, in store order. -/
def findSpendableLoop (pubKeyHash : List Nat) (amount : Int) :
    List (List Nat × TxOutputs) → Int → List (List Nat × List Int) →
    Int × List (List Nat × List Int)
  | [], acc, res => (acc, res)
  | (k, outs) :: rest, acc, res =>
    if utxoPrefixBytes.isPrefixOf k then
      let txID := hexEncode (k.drop utxoPrefixBytes.length)
      let step := outs.outputs.enum.foldl (fun (st : Int × List (List Nat × List Int)) oi =>
        if oi.2.IsLockedWithKey pubKeyHash ∧ st.1 < amount then
          (st.1 + oi.2.value, putKV st.2 txID (((lookupKV st.2 txID).getD []) ++ [(oi.1 : Int)]))
        else st) (acc, res)
      findSpendableLoop pubKeyHash amount rest step.1 step.2
    else findSpendableLoop pubKeyHash amount rest acc res

/-- UTXOSet.FindSpendableOutputs (src/utxo_set.go). -/
def FindSpendableOutputs (st : List (List Nat × TxOutputs)) (pubKeyHash : List Nat)
    (amount : Int) : Int × List (List Nat × List Int) :=
  findSpendableLoop pubKeyHash amount st 0 []

/-- Outcome of NewUTXOTransaction: a built transaction, a process exit
(os.Exit), or a panic (log.Panic or runtime panic). -/
inductive TxBuildOutcome where
  | ok (tx : Transaction)
  | exitProcess (code : Nat)
  | panicked
deriving DecidableEq, Repr

/-- Wallets.GetWalletRef (wallets.go): nil for an unknown address. -/
def getWalletRef (ws : List (List Nat × Wallet)) (address : List Nat) : Option Wallet :=
  lookupKV ws address

/-- The input-building loop of NewUTXOTransaction (transaction.go):
hex-decode each selected txid (log.Panic on failure) and reference each
selected output index with the wallet's public key. -/
def buildInputs (pubKey : List Nat) :
    List (List Nat × List Int) → Option (List TxInput)
  | [] => some []
  | (txidHex, outs) :: rest =>
    match hexDecode txidHex with
    | none => none
    | some txID =>
      match buildInputs pubKey rest with
      | none => none
      | some more => some (outs.map (fun out => (⟨txID, out, [], pubKey⟩ : TxInput)) ++ more)

/-- NewUTXOTransaction (transaction.go): load the wallets file (log.Panic on
error), find the sender's wallet (os.Exit(1) if absent), select spendable
outputs, os.Exit(1) on insufficient funds, otherwise build outputs (with
change), hash and sign using the chain. -/
def NewUTXOTransaction (p : CryptoPrims) (now : Int)
    (walletsFile : Option (List (List Nat × Wallet)))
    (utxo : List (List Nat × TxOutputs)) (chain : ChainState) (fuel : Nat)
    (fromAddr toAddr : List Nat) (amount : Int) : TxBuildOutcome :=
  match walletsFile with
  | none => .panicked
  | some wallets =>
    match getWalletRef wallets fromAddr with
    | none => .exitProcess 1
    | some wallet =>
      let pubKeyHash := HashPubKey p wallet.publicKey
      let sel := FindSpendableOutputs utxo pubKeyHash amount
      if sel.1 < amount then .exitProcess 1
      else
        match buildInputs wallet.publicKey sel.2 with
        | none => .panicked
        | some inputs =>
          match NewTxOutput amount toAddr with
          | none => .panicked
          | some out1 =>
            let outsRes : Option (List TxOutput) :=
              if sel.1 > amount then
                (NewTxOutput (sel.1 - amount) fromAddr).map (fun o2 => [out1, o2])
              else some [out1]
            match outsRes with
            | none => .panicked
            | some outputs =>
              let tx : Transaction := ⟨[], inputs, outputs, now⟩
              let tx1 := { tx with id := Transaction.Hash p tx }
              match SignTransactionChain p chain tx1 wallet.privateKey fuel with
              | none => .panicked
              | some signedTx => .ok signedTx

/-- TxMsg (api_server.go). -/
structure TxMsg where
  addrFrom : List Nat
  transaction : List Nat
deriving DecidableEq, Repr

/-- The encoding/gob library, as used by the P2P handler: `decodeTxMsg`
never fails in the source because the Decode error is discarded (a failed
decode leaves the zero TxMsg); `decodeTx` failing is a log.Panic in
DeserializeTransaction (api_server.go). -/
structure GobPrims where
  decodeTxMsg : List Nat → TxMsg
  decodeTx : List Nat → Option Transaction

/-- DeserializeTransaction (api_server.go, gob decoder): log.Panic on a
gob error. -/
def DeserializeTransactionGob (g : GobPrims) (data : List Nat) : Option Transaction :=
  g.decodeTx data

/-- An outbound P2P send. -/
inductive OutMsg where
  | inv (toPeer : List Nat) (kind : List Nat) (items : List (List Nat))
deriving DecidableEq, Repr

/-- Server (api_server.go): chain handle, miner configuration, mempool
(hex-id keyed) and the connected peer set. -/
structure ServerState where
  chain : ChainState
  minerAddr : List Nat
  validatorPrivKey : Option PrivateKey
  mempool : List (List Nat × Transaction)
  peers : List (List Nat)
deriving DecidableEq, Repr

/-- The candidate-collection loop of the mining branch of HandleTx
(api_server.go): keep mempool transactions that verify against the chain;
a verification panic (`none`) crashes the handler. -/
def collectVerified (p : CryptoPrims) (chain : ChainState) (fuel : Nat) :
    List (List Nat × Transaction) → Option (List Transaction)
  | [] => some []
  | (_, tx) :: rest =>
    match VerifyTransactionChain p chain tx fuel with
    | none => none
    | some true =>
      match collectVerified p chain fuel rest with
      | none => none
      | some l => some (tx :: l)
    | some false => collectVerified p chain fuel rest

/-- Server.HandleTx (api_server.go): gob-decode the TxMsg (error ignored),
gob-decode the transaction (log.Panic on failure), insert into the mempool
if its id is new (no verification) and forward inv(tx) to every peer except
the sender; then, on a mining node with a nonempty mempool, verify the
mempool candidates, prepend a 20-unit coinbase, forge, clear the mempool of
the forged ids, and announce the block to every peer.  `none` is a panic
that crashes the node. -/
def HandleTx (p : CryptoPrims) (g : GobPrims) (now : Int) (fuel : Nat)
    (s : ServerState) (peerID : List Nat) (request : List Nat) :
    Option (ServerState × List OutMsg) :=
  let payload := g.decodeTxMsg request
  match DeserializeTransactionGob g payload.transaction with
  | none => none
  | some tx =>
    let key := hexEncode tx.id
    let isNew := (lookupTx s.mempool key).id.isEmpty
    let mem1 := if isNew then setKV s.mempool key tx else s.mempool
    let msgs1 : List OutMsg :=
      if isNew then
        (s.peers.filter (fun pr => !(pr = peerID : Bool))).map
          (fun pr => OutMsg.inv pr (strBytes "tx") [tx.id])
      else []
    let s1 : ServerState := { s with mempool := mem1 }
    match s.validatorPrivKey with
    | some k =>
      if s.minerAddr.length ≠ 0 ∧ 1 ≤ mem1.length then
        match collectVerified p s1.chain fuel mem1 with
        | none => none
        | some txs =>
          if txs.length = 0 then some (s1, msgs1)
          else
            match NewCoinbaseTX p now s.minerAddr [] 20 with
            | none => none
            | some cbTx =>
              let allTxs := cbTx :: txs
              match ForgeBlock p now s1.chain allTxs k with
              | none => none
              | some (newBlock, chain2) =>
                let mem2 := allTxs.foldl (fun m t => delKV m (hexEncode t.id)) mem1
                let msgs2 := s.peers.map
                  (fun pr => OutMsg.inv pr (strBytes "block") [newBlock.hash])
                some ({ s1 with chain := chain2, mempool := mem2 }, msgs1 ++ msgs2)
      else some (s1, msgs1)
    | none => some (s1, msgs1)

/-- Well-formedness of an input as a Go value: byte-slice entries are bytes,
slice lengths fit an int64 (guaranteed by Go's memory model), and the Go
`int` field fits an int64. -/
def TxInput.WF (i : TxInput) : Prop :=
  isBytes i.txid ∧ isBytes i.signature ∧ isBytes i.pubKey ∧
  i.txid.length < 9223372036854775808 ∧
  i.signature.length < 9223372036854775808 ∧
  i.pubKey.length < 9223372036854775808 ∧ i64Range i.vout

/-- Well-formedness of an output as a Go value. -/
def TxOutput.WF (o : TxOutput) : Prop :=
  isBytes o.pubKeyHash ∧ o.pubKeyHash.length < 9223372036854775808 ∧ i64Range o.value

/-- Well-formedness of a transaction as a Go value. -/
def Transaction.WF (t : Transaction) : Prop :=
  (∀ i ∈ t.vin, i.WF) ∧ (∀ o ∈ t.vout, o.WF) ∧ i64Range t.timestamp ∧
  t.vin.length < 9223372036854775808 ∧ t.vout.length < 9223372036854775808

theorem readI64_encode (v : Int) (rest : List Nat) (h : i64Range v) :
    readI64 (i64encode v ++ rest) = (v, rest) := by
  have hlen : (i64encode v).length = 8 := i64encode_length v
  have ht : (i64encode v ++ rest).take 8 = i64encode v := by
    rw [← hlen]; exact List.take_left _ _
  have hd : (i64encode v ++ rest).drop 8 = rest := by
    rw [← hlen]; exact List.drop_left _ _
  have hge : 8 ≤ (i64encode v ++ rest).length := by
    rw [List.length_append, hlen]; omega
  rw [readI64, if_pos hge, ht, hd, i64_roundtrip v h]

theorem readBytes_exact (bs rest : List Nat) :
    readBytes bs.length (bs ++ rest) = (bs, rest) := by
  have h0 : bs.length - (bs ++ rest).length = 0 := by
    rw [List.length_append]; omega
  rw [readBytes, h0, List.take_left, List.drop_left, List.replicate_zero,
    List.append_nil]

theorem natCast_nonneg_int (n : Nat) : ¬ ((n : Int) < 0) := by omega

theorem i64Range_of_lt (n : Nat) (h : n < 9223372036854775808) :
    i64Range (n : Int) := by
  constructor <;> omega

theorem readInputs_encode (vins : List TxInput) (rest : List Nat)
    (h : ∀ i ∈ vins, i.WF) :
    readInputs vins.length (vins.flatMap encodeInput ++ rest) = some (vins, rest) := by
  induction vins generalizing rest with
  | nil => rfl
  | cons i tl ih =>
    obtain ⟨_, _, _, h1, h2, h3, h4⟩ := h i (List.mem_cons_self ..)
    have htl := fun j hj => h j (List.mem_cons_of_mem _ hj)
    simp only [List.flatMap_cons, List.length_cons, encodeInput, List.append_assoc]
    rw [readInputs]
    rw [readI64_encode _ _ (i64Range_of_lt _ h1)]
    simp only [Int.toNat_natCast]
    rw [if_neg (natCast_nonneg_int _), readBytes_exact,
      readI64_encode _ _ h4,
      readI64_encode _ _ (i64Range_of_lt _ h2)]
    simp only [Int.toNat_natCast]
    rw [if_neg (natCast_nonneg_int _), readBytes_exact,
      readI64_encode _ _ (i64Range_of_lt _ h3)]
    simp only [Int.toNat_natCast]
    rw [if_neg (natCast_nonneg_int _), readBytes_exact, ih rest htl]

theorem readOutputs_encode (vouts : List TxOutput) (rest : List Nat)
    (h : ∀ o ∈ vouts, o.WF) :
    readOutputs vouts.length (vouts.flatMap encodeOutput ++ rest) = some (vouts, rest) := by
  induction vouts generalizing rest with
  | nil => rfl
  | cons o tl ih =>
    obtain ⟨_, h1, h2⟩ := h o (List.mem_cons_self ..)
    have htl := fun j hj => h j (List.mem_cons_of_mem _ hj)
    simp only [List.flatMap_cons, List.length_cons, encodeOutput, List.append_assoc]
    rw [readOutputs]
    rw [readI64_encode _ _ h2, readI64_encode _ _ (i64Range_of_lt _ h1)]
    simp only [Int.toNat_natCast]
    rw [if_neg (natCast_nonneg_int _), readBytes_exact, ih rest htl]

/-- The transport round trip on the field level: deserializing a serialized
well-formed transaction restores vin, vout and timestamp exactly, and the id
is recomputed as the content hash. -/
theorem DeserializeTransaction_Serialize (p : CryptoPrims) (t : Transaction)
    (h : t.WF) :
    DeserializeTransaction p t.Serialize =
      some ⟨Transaction.Hash p t, t.vin, t.vout, t.timestamp⟩ := by
  obtain ⟨hin, hout, hts, hlin, hlout⟩ := h
  rw [Transaction.Serialize, DeserializeTransaction]
  simp only [List.append_assoc]
  rw [readI64_encode _ _ (i64Range_of_lt _ hlin)]
  simp only [Int.toNat_natCast]
  rw [readInputs_encode _ _ hin]
  dsimp only
  rw [readI64_encode _ _ (i64Range_of_lt _ hlout)]
  simp only [Int.toNat_natCast]
  rw [readOutputs_encode _ _ hout]
  dsimp only
  have hlen : 0 < (i64encode t.timestamp).length := by
    rw [i64encode_length]; omega
  rw [if_pos hlen]
  have : readI64 (i64encode t.timestamp) = (t.timestamp, []) := by
    have := readI64_encode t.timestamp [] hts
    rwa [List.append_nil] at this
  rw [this]
  have hid : Transaction.Hash p ⟨[], t.vin, t.vout, t.timestamp⟩ = Transaction.Hash p t := by
    rw [Transaction.Hash, Transaction.Hash]
  rw [hid]

instance (i : TxInput) : Decidable i.WF :=
  inferInstanceAs (Decidable (_ ∧ _ ∧ _ ∧ _ ∧ _ ∧ _ ∧ _))

instance (o : TxOutput) : Decidable o.WF :=
  inferInstanceAs (Decidable (_ ∧ _ ∧ _))

instance (t : Transaction) : Decidable t.WF :=
  inferInstanceAs (Decidable (_ ∧ _ ∧ _ ∧ _ ∧ _))

/-- A concrete 32-byte digest oracle for instantiating the embedding. -/
def stub32 : List Nat → List Nat := fun _ => List.replicate 32 0

/-- Concrete primitives: 32-byte digests, 20-byte ripemd digests, an ECDSA
oracle that accepts, a signing oracle returning (1, 1). -/
def stubPrims : CryptoPrims :=
  ⟨stub32, fun _ => List.replicate 20 7, fun _ _ _ _ _ => true, fun _ _ => (1, 1)⟩

/-- Concrete primitives whose ripemd oracle returns the one-byte hash [7]. -/
def stubPrims7 : CryptoPrims :=
  ⟨stub32, fun _ => [7], fun _ _ _ _ _ => true, fun _ _ => (1, 1)⟩

theorem goodSha_stub32 : GoodSha stub32 := by
  intro x
  refine ⟨fun b hb => ?_, by simp [stub32]⟩
  rw [stub32, List.mem_replicate] at hb
  omega

theorem lookup_setKV_self {α : Type} (st : List (List Nat × α)) (k : List Nat) (v : α) :
    lookupKV (setKV st k v) k = some v := by
  simp [setKV, lookupKV]

theorem lookupKV_filter_ne {α : Type} (st : List (List Nat × α)) (k key : List Nat)
    (h : key ≠ k) :
    lookupKV (st.filter (fun kv => !(kv.1 = k : Bool))) key = lookupKV st key := by
  induction st with
  | nil => rfl
  | cons kv rest ih =>
    obtain ⟨k1, v1⟩ := kv
    rw [List.filter_cons]
    by_cases hk : k1 = k
    · rw [if_neg (by simp [hk]), lookupKV, if_neg (by rw [hk]; exact fun hh => h hh.symm)]
      exact ih
    · rw [if_pos (by simpa using hk), lookupKV, lookupKV]
      by_cases hkey : k1 = key
      · simp [hkey]
      · rw [if_neg hkey, if_neg hkey]
        exact ih

theorem lookupKV_filter_self {α : Type} (st : List (List Nat × α)) (k : List Nat) :
    lookupKV (st.filter (fun kv => !(kv.1 = k : Bool))) k = none := by
  induction st with
  | nil => rfl
  | cons kv rest ih =>
    obtain ⟨k1, v1⟩ := kv
    rw [List.filter_cons]
    by_cases hk : k1 = k
    · rw [if_neg (by simp [hk])]
      exact ih
    · rw [if_pos (by simpa using hk), lookupKV, if_neg hk]
      exact ih

theorem lookup_setKV_ne {α : Type} (st : List (List Nat × α)) (k key : List Nat) (v : α)
    (h : key ≠ k) : lookupKV (setKV st k v) key = lookupKV st key := by
  rw [setKV, lookupKV, if_neg (fun hh => h hh.symm)]
  exact lookupKV_filter_ne st k key h

theorem lookup_delKV {α : Type} (st : List (List Nat × α)) (k key : List Nat)
    (h : (lookupKV (delKV st k) key).isSome) : (lookupKV st key).isSome := by
  by_cases hk : key = k
  · subst hk
    rw [delKV, lookupKV_filter_self] at h
    cases h
  · rwa [delKV, lookupKV_filter_ne st k key hk] at h

theorem lookup_setKV_isSome {α : Type} (st : List (List Nat × α)) (k key : List Nat) (v : α)
    (h : (lookupKV (setKV st k v) key).isSome) :
    key = k ∨ (lookupKV st key).isSome := by
  by_cases hk : key = k
  · exact Or.inl hk
  · rw [lookup_setKV_ne st k key v hk] at h
    exact Or.inr h

theorem fillBytesLen_length (k n : Nat) (l : List Nat) (h : fillBytesLen k n = some l) :
    l.length = k := by
  rw [fillBytesLen] at h
  split at h
  · cases h
    simp only [List.length_append, List.length_replicate]
    omega
  · cases h

theorem getSignatureBytes_length (r s : Nat) (l : List Nat)
    (h : GetSignatureBytes r s = some l) : l.length = 64 := by
  rw [GetSignatureBytes] at h
  split at h
  · cases h
    simp only [List.length_append, List.length_replicate]
    omega
  · cases h

set_option maxRecDepth 40000 in
/-- Claim C9 (counterexample): the claim quantifies over every transaction,
but the genesis coinbase is a chain transaction whose id is the 18-byte
literal rather than its content hash, so the transport round trip replaces
its id: deserializing its serialization yields a different id. -/
theorem tx_roundtrip_id_cex :
    ((NewGenesisBlock stubPrims 1).bind (fun b => b.transactions.head?)).bind
        (fun cb => (DeserializeTransaction stubPrims cb.Serialize).map
          (fun t2 => decide (t2.id = cb.id))) = some false := by decide

/-- Claim C9 (amended): for every well-formed transaction, the transport
round trip restores vin, vout and timestamp exactly and recomputes the id as
the content hash (the id is not on the wire); when the transaction's id
already equals its content hash — as for every transaction built by
NewCoinbaseTX, NewUTXOTransaction or DeserializeTransaction, though not for
the genesis coinbase — the round trip is the identity. -/
theorem tx_serialize_roundtrip (p : CryptoPrims) (t : Transaction) (h : t.WF) :
    DeserializeTransaction p t.Serialize =
        some ⟨Transaction.Hash p t, t.vin, t.vout, t.timestamp⟩ ∧
      (t.id = Transaction.Hash p t → DeserializeTransaction p t.Serialize = some t) := by
  have hmain := DeserializeTransaction_Serialize p t h
  refine ⟨hmain, fun hid => ?_⟩
  rw [hmain, ← hid]

/-- A concrete well-formed transfer-shaped transaction. -/
def sampleTx : Transaction :=
  ⟨List.replicate 32 0, [⟨[9], 0, List.replicate 64 0, List.replicate 64 3⟩],
   [⟨10, [7]⟩], 42⟩

theorem tx_serialize_roundtrip_witness :
    DeserializeTransaction stubPrims sampleTx.Serialize =
      some ⟨Transaction.Hash stubPrims sampleTx, sampleTx.vin, sampleTx.vout,
        sampleTx.timestamp⟩ :=
  (tx_serialize_roundtrip stubPrims sampleTx (by decide)).1

/-- Claim C8 (counterexample): ValidateAddress is not total: on the input
"0", whose character is not in the Base58 alphabet, Base58Decode fails and
ValidateAddress calls log.Panic (modelled `none`) instead of returning
false. -/
theorem validateAddress_panic_cex :
    ValidateAddress stubPrims (strBytes "0") = none := by decide

theorem checksum_length (p : CryptoPrims) (hg : GoodSha p.sha256) (payload : List Nat) :
    (checksum p payload).length = 4 := by
  rw [checksum, List.length_take, (hg _).2]
  omega

theorem checksum_isBytes (p : CryptoPrims) (hg : GoodSha p.sha256) (payload : List Nat) :
    isBytes (checksum p payload) := by
  intro b hb
  exact (hg _).1 b (List.mem_of_mem_take hb)

/-- Claim C8 (amended): the address round trip holds — validating an encoded
20-byte pubKeyHash yields `some true` — but ValidateAddress panics (rather
than returning false) when Base58 decoding fails; a short decoded payload or
a checksum mismatch does return false. -/
theorem validateAddress_roundtrip (p : CryptoPrims) (h : List Nat)
    (hb : isBytes h) (hlen : h.length = 20) (hg : GoodSha p.sha256) :
    ValidateAddress p (PubKeyHashToAddress p h) = some true := by
  set cs := checksum p (0 :: h) with hcs
  have hcsLen : cs.length = 4 := checksum_length p hg _
  have hcsB : isBytes cs := checksum_isBytes p hg _
  have hpayB : isBytes ((0 :: h) ++ cs) := by
    intro b hbm
    rcases List.mem_append.mp hbm with hm | hm
    · rcases List.mem_cons.mp hm with rfl | hm
      · omega
      · exact hb b hm
    · exact hcsB b hm
  have hdec : Base58Decode (Base58Encode ((0 :: h) ++ cs)) = some ((0 :: h) ++ cs) :=
    Base58Decode_Base58Encode _ hpayB
  have hlenAll : ((0 :: h) ++ cs).length = 25 := by
    simp [hlen, hcsLen]
  have hslice : goSlice ((0 :: h) ++ cs) 1 ((((0 :: h) ++ cs).length : Int) - 4) = some h := by
    have e1 : ((((0 :: h) ++ cs).length : Int) - 4).toNat = 21 := by rw [hlenAll]; rfl
    rw [goSlice, if_pos (by rw [hlenAll]; norm_num), e1]
    have htake : ((0 :: h) ++ cs).take 21 = 0 :: h := by
      have h21 : (21 : Nat) = (0 :: h).length := by simp [hlen]
      rw [h21]
      exact List.take_left _ _
    rw [htake]
    rfl
  have hdrop : ((0 :: h) ++ cs).drop (((0 :: h) ++ cs).length - 4) = cs := by
    rw [hlenAll]
    have h21 : (25 : Nat) - 4 = (0 :: h).length := by simp [hlen]
    rw [h21]
    exact List.drop_left _ _
  rw [ValidateAddress, PubKeyHashToAddress]
  simp only
  rw [← hcs, hdec]
  dsimp only
  rw [if_neg (by omega)]
  have hhead : ((0 :: h) ++ cs)[0]? = some 0 := by simp
  rw [hhead]
  dsimp only
  rw [hslice]
  dsimp only
  rw [hdrop, ← hcs]
  simp

theorem validateAddress_roundtrip_witness :
    ValidateAddress stubPrims (PubKeyHashToAddress stubPrims (List.replicate 20 5)) =
      some true :=
  validateAddress_roundtrip stubPrims (List.replicate 20 5)
    (by decide) (by decide) goodSha_stub32

/-- A concrete private key with small coordinates. -/
def pk0 : PrivateKey := ⟨1, 2, 3⟩

/-- A concrete block whose hash field is already set (nonempty). -/
def blk0 : Block := ⟨0, [], [], [9], 0, 0, [], []⟩

/-- Claim C4 (counterexample): after SignBlock the validator is the 64-byte
raw X||Y, not the 65-byte 0x04-prefixed uncompressed form the claim
states. -/
theorem signBlock_validator_cex :
    (SignBlock stubPrims pk0 blk0).map (fun b => b.validator.length) = some 64 := by
  decide

/-- Claim C4 (amended): after a successful SignBlock, the hash is left in
place when already set (recomputed by SetHash when empty), the signature is
the 64-byte padded (r, s) over that hash, and the validator is the 64-byte
raw X||Y concatenation — the legacy wire shape, not 0x04||X||Y. -/
theorem signBlock_spec (p : CryptoPrims) (k : PrivateKey) (b : Block)
    (xB yB sig : List Nat)
    (hx : fillBytesLen 32 k.x = some xB) (hy : fillBytesLen 32 k.y = some yB)
    (hsig : GetSignatureBytes
        (p.ecdsaSign k.d (if b.hash.length = 0 then Block.SetHash p b else b).hash).1
        (p.ecdsaSign k.d (if b.hash.length = 0 then Block.SetHash p b else b).hash).2 =
        some sig) :
    SignBlock p k b =
        some { (if b.hash.length = 0 then Block.SetHash p b else b) with
               signature := sig, validator := xB ++ yB } ∧
      (xB ++ yB).length = 64 ∧ sig.length = 64 := by
  refine ⟨?_, ?_, getSignatureBytes_length _ _ _ hsig⟩
  · rw [SignBlock]
    dsimp only
    rw [hsig]
    dsimp only
    rw [hx, hy]
  · rw [List.length_append, fillBytesLen_length 32 k.x xB hx,
      fillBytesLen_length 32 k.y yB hy]

/-- The padded X coordinate of `pk0`. -/
def xB0 : List Nat := (fillBytesLen 32 pk0.x).getD []

/-- The padded Y coordinate of `pk0`. -/
def yB0 : List Nat := (fillBytesLen 32 pk0.y).getD []

/-- The concrete signature bytes produced over blk0's hash. -/
def sig0 : List Nat :=
  (GetSignatureBytes (stubPrims.ecdsaSign pk0.d blk0.hash).1
    (stubPrims.ecdsaSign pk0.d blk0.hash).2).getD []

theorem signBlock_spec_witness :
    SignBlock stubPrims pk0 blk0 =
        some { (if blk0.hash.length = 0 then Block.SetHash stubPrims blk0 else blk0) with
               signature := sig0, validator := xB0 ++ yB0 } ∧
      (xB0 ++ yB0).length = 64 ∧ sig0.length = 64 :=
  signBlock_spec stubPrims pk0 blk0 xB0 yB0 sig0 (by rfl) (by rfl) (by rfl)

/-- A concrete wallet whose public key is 64 arbitrary bytes. -/
def walletA : Wallet := ⟨⟨1, 2, 3⟩, List.replicate 64 3⟩

/-- A concrete sender address key in the wallet file. -/
def addrA : List Nat := strBytes "A"

/-- A concrete recipient address key. -/
def addrB : List Nat := strBytes "B"

/-- An empty chain handle (never consulted on the insufficient-funds path). -/
def emptyChain : ChainState := ⟨[], []⟩

/-- Claim C7 (counterexample): with an empty UTXO index, NewUTXOTransaction
terminates the whole process via os.Exit(1); no InsufficientFunds error
value is returned to the caller. -/
theorem newTransfer_exit_cex :
    NewUTXOTransaction stubPrims 0 (some [(addrA, walletA)]) [] emptyChain 1
      addrA addrB 1 = TxBuildOutcome.exitProcess 1 := by decide

/-- Claim C7 (amended): when the selected spendable outputs do not reach the
requested amount, NewUTXOTransaction prints a diagnostic and exits the
process with code 1 instead of returning an error to the caller; it performs
no store writes, so chain, UTXO index and mempool are untouched. -/
theorem newTransfer_insufficient (p : CryptoPrims) (now : Int)
    (ws : List (List Nat × Wallet)) (utxo : List (List Nat × TxOutputs))
    (chain : ChainState) (fuel : Nat) (fromAddr toAddr : List Nat) (amount : Int)
    (w : Wallet) (hw : getWalletRef ws fromAddr = some w)
    (hacc : (FindSpendableOutputs utxo (HashPubKey p w.publicKey) amount).1 < amount) :
    NewUTXOTransaction p now (some ws) utxo chain fuel fromAddr toAddr amount =
        TxBuildOutcome.exitProcess 1 ∧
      ∀ tx, NewUTXOTransaction p now (some ws) utxo chain fuel fromAddr toAddr amount ≠
        TxBuildOutcome.ok tx := by
  have hmain : NewUTXOTransaction p now (some ws) utxo chain fuel fromAddr toAddr amount =
      TxBuildOutcome.exitProcess 1 := by
    rw [NewUTXOTransaction]
    dsimp only
    rw [hw]
    dsimp only
    rw [if_pos hacc]
  exact ⟨hmain, fun tx h => by rw [hmain] at h; cases h⟩

theorem newTransfer_insufficient_witness :
    NewUTXOTransaction stubPrims 0 [(addrA, walletA)] [] emptyChain 1 addrA addrB 1 =
        TxBuildOutcome.exitProcess 1 ∧
      ∀ tx, NewUTXOTransaction stubPrims 0 [(addrA, walletA)] [] emptyChain 1
        addrA addrB 1 ≠ TxBuildOutcome.ok tx :=
  newTransfer_insufficient stubPrims 0 [(addrA, walletA)] [] emptyChain 1
    addrA addrB 1 walletA (by rfl) (by decide)

/-- The mining loop only ever returns a block whose hash meets the target,
and it never touches anything but the nonce and the hash. -/
theorem mineBlockLoop_spec (p : CryptoPrims) :
    ∀ (f : Nat) (b0 b : Block), MineBlockLoop p f b0 = some b →
      CheckProofOfWork b.hash = true ∧ b.transactions = b0.transactions ∧
        b.height = b0.height ∧ b.prevBlockHash = b0.prevBlockHash ∧
        b.validator = b0.validator ∧ b.signature = b0.signature ∧
        b.timestamp = b0.timestamp := by
  intro f
  induction f with
  | zero => intro b0 b h; cases h
  | succ f ih =>
    intro b0 b h
    rw [MineBlockLoop] at h
    try dsimp only at h
    by_cases hc : CheckProofOfWork (Block.SetHash p b0).hash = true
    · rw [if_pos hc] at h
      cases h
      exact ⟨hc, rfl, rfl, rfl, rfl, rfl, rfl⟩
    · rw [if_neg hc] at h
      obtain ⟨h1, h2, h3, h4, h5, h6, h7⟩ := ih _ _ h
      exact ⟨h1, h2, h3, h4, h5, h6, h7⟩

/-- The pubKeyHash of the compiled-in admin address (version and checksum
stripped, as genesis.go does). -/
def adminPubKeyHash : List Nat :=
  ((Base58Decode GenesisAdminAddress).bind
    (fun d => goSlice d 1 ((d.length : Int) - 4))).getD []

/-- The genesis coinbase as assembled by NewGenesisBlock. -/
def gcb0 : Transaction :=
  ⟨strBytes "SOLE_GENESIS_TX_ID", [⟨[], -1, [], GenesisCoinbaseData⟩],
   [⟨500000000000000, adminPubKeyHash⟩], GenesisTimestamp⟩

/-- The genesis block as assembled by NewGenesisBlock before mining. -/
def genesisBlock0 : Block :=
  ⟨GenesisTimestamp, [gcb0], [], [], 0, 0, strBytes "Genesis", []⟩

/-- Claim C10 (amended): the genesis block carries exactly one coinbase
whose id is the literal 18 ASCII bytes "SOLE_GENESIS_TX_ID" — not its
content hash, whose digest would have 32 bytes — with one output of
5000000 * 10^8 locked to the compiled-in admin address; the block has height
0, empty prevHash, the placeholder validator "Genesis", an empty signature,
and its mined hash meets the symbolic PoW target.  (The "single such
transaction" part of the original claim is refuted separately: accepted
foreign blocks are not checked for id integrity.) -/
theorem genesis_spec (p : CryptoPrims) (fuel : Nat) (b : Block)
    (h : NewGenesisBlock p fuel = some b) (hg : GoodSha p.sha256) :
    b.height = 0 ∧ b.prevBlockHash = [] ∧ b.validator = strBytes "Genesis" ∧
      b.signature = [] ∧ CheckProofOfWork b.hash = true ∧
      b.transactions.map (fun t => t.id) = [strBytes "SOLE_GENESIS_TX_ID"] ∧
      ∀ cb ∈ b.transactions,
        cb.id ≠ Transaction.Hash p cb ∧
        cb.vout.map (fun o => o.value) = [500000000000000] ∧
        cb.vout.map (fun o => o.pubKeyHash) = [adminPubKeyHash] ∧
        cb.timestamp = GenesisTimestamp ∧
        cb.vin = [⟨[], -1, [], GenesisCoinbaseData⟩] := by
  have hfront : NewGenesisBlock p fuel = MineBlock p fuel genesisBlock0 := by rfl
  rw [hfront, MineBlock] at h
  obtain ⟨hpow, ht, hh, hp, hv, hs, hts⟩ := mineBlockLoop_spec p fuel _ b h
  refine ⟨by rw [hh]; rfl, by rw [hp]; rfl, by rw [hv]; rfl, by rw [hs]; rfl, hpow,
    by rw [ht]; rfl, ?_⟩
  intro cb hcb
  rw [ht] at hcb
  have hcb2 : cb ∈ genesisBlock0.transactions := by simpa using hcb
  have hcb3 : cb = gcb0 := by
    have he : genesisBlock0.transactions = [gcb0] := rfl
    rw [he, List.mem_singleton] at hcb2
    exact hcb2
  subst hcb3
  refine ⟨?_, by decide, by decide, by decide, by decide⟩
  intro heq
  have hlen := congrArg List.length heq
  rw [Transaction.Hash, (hg _).2] at hlen
  revert hlen
  decide

/-- The concrete mined genesis block under the stub primitives. -/
def gB : Block := (NewGenesisBlock stubPrims 1).getD genesisBlock0

set_option maxRecDepth 40000 in
theorem genesis_spec_witness :
    gB.height = 0 ∧ gB.prevBlockHash = [] ∧ gB.validator = strBytes "Genesis" ∧
      gB.signature = [] ∧ CheckProofOfWork gB.hash = true ∧
      gB.transactions.map (fun t => t.id) = [strBytes "SOLE_GENESIS_TX_ID"] ∧
      ∀ cb ∈ gB.transactions,
        cb.id ≠ Transaction.Hash stubPrims cb ∧
        cb.vout.map (fun o => o.value) = [500000000000000] ∧
        cb.vout.map (fun o => o.pubKeyHash) = [adminPubKeyHash] ∧
        cb.timestamp = GenesisTimestamp ∧
        cb.vin = [⟨[], -1, [], GenesisCoinbaseData⟩] :=
  genesis_spec stubPrims 1 gB (by rfl) goodSha_stub32

/-- The 65-byte public key of the first compiled-in authorized validator. -/
def validator0 : List Nat := (hexDecode (AuthorizedValidators.headD [])).getD []

/-- A transaction whose id is neither the genesis literal nor its content
hash. -/
def txFake : Transaction := ⟨[1], [⟨[9], 0, [], []⟩], [], 0⟩

/-- A block signed by an authorized validator (the signature oracle accepts)
carrying `txFake`, violating every header rule. -/
def bFake : Block := ⟨0, [txFake], [99], [7], 5, 0, validator0, List.replicate 64 0⟩

/-- The chain whose only block is the concrete genesis block. -/
def chainG : ChainState := ⟨gB.hash, [(gB.hash, gB)]⟩

set_option maxRecDepth 100000 in
/-- Claim C10 (counterexample): the genesis coinbase is not the single
chain-confirmed transaction whose id is not its content hash: AddBlock
accepts — from the genesis state — a validator-signed block containing a
transaction whose id ([1]) is neither its content hash (a 32-byte digest)
nor the genesis literal, so that transaction is also chain-confirmed. -/
theorem genesis_not_single_cex :
    (AddBlock stubPrims chainG bFake).map (fun r => r.1) = some true ∧
      (AddBlock stubPrims chainG bFake).map
        (fun r => lookupKV r.2.store bFake.hash) = some (some bFake) ∧
      bFake.transactions.map
        (fun t => decide (t.id = Transaction.Hash stubPrims t)) = [false] ∧
      bFake.transactions.map
        (fun t => decide (t.id = strBytes "SOLE_GENESIS_TX_ID")) = [false] := by
  decide

/-- The tip block of the C1 counterexample chain. -/
def tipB : Block := ⟨100, [], [], [5], 0, 0, [], []⟩

/-- A one-block chain with tip `tipB`. -/
def chain1 : ChainState := ⟨[5], [([5], tipB)]⟩

/-- A block violating every header rule: non-monotonic timestamp, height 5
over a height-0 tip, prevHash unrelated to the tip, hash failing the
symbolic PoW; its validator is authorized and the signature oracle
accepts. -/
def badB : Block := ⟨50, [], [42], [7], 5, 0, validator0, List.replicate 64 0⟩

set_option maxRecDepth 100000 in
/-- Claim C1 (counterexample): AddBlock accepts (returns true and stores)
a non-duplicate block that passes the signature check but violates every
header rule against the tip: its timestamp is not greater, its height is
not tip.height + 1, its prevHash is not the tip's hash, and its hash fails
the symbolic PoW; ValidateBlockHeader is never consulted. -/
theorem addBlock_no_header_rules_cex :
    AddBlock stubPrims chain1 badB =
        some (true, ⟨[7], [([7], badB), ([5], tipB)]⟩) ∧
      ValidateBlockHeader 1000 badB tipB = false ∧
      decide (badB.height = tipB.height + 1) = false ∧
      decide (badB.prevBlockHash = tipB.hash) = false ∧
      CheckProofOfWork badB.hash = false ∧
      decide (badB.timestamp > tipB.timestamp) = false := by
  decide

/-- Claim C1 (amended): AddBlock's acceptance is decided only by the
duplicate check and the PoA signature check; header rules (timestamp
monotonicity, drift, symbolic PoW, height and prevHash linkage) are not
enforced.  A duplicate or signature-failing block is rejected with the
store unchanged; any other block with a verifying signature is stored, and
"lh" moves to it exactly when its height exceeds the tip height. -/
theorem addBlock_spec (p : CryptoPrims) (chain : ChainState) (b tip : Block)
    (htip : lookupKV chain.store chain.lastHash = some tip) :
    (∀ old, lookupKV chain.store b.hash = some old →
        AddBlock p chain b = some (false, chain)) ∧
      (lookupKV chain.store b.hash = none → VerifyBlockSignature p b = false →
        AddBlock p chain b = some (false, chain)) ∧
      (lookupKV chain.store b.hash = none → VerifyBlockSignature p b = true →
        AddBlock p chain b = some (true,
          ⟨if b.height > tip.height then b.hash else chain.lastHash,
           setKV chain.store b.hash b⟩)) := by
  refine ⟨?_, ?_, ?_⟩
  · intro old hold
    rw [AddBlock, hold]
  · intro hnone hsig
    rw [AddBlock, hnone]
    try dsimp only
    rw [hsig]
    simp
  · intro hnone hsig
    rw [AddBlock, hnone]
    try dsimp only
    rw [hsig]
    try dsimp only
    rw [if_neg (by simp)]
    try dsimp only
    have hne : chain.lastHash ≠ b.hash := by
      intro he
      rw [← he] at hnone
      rw [hnone] at htip
      cases htip
    rw [lookup_setKV_ne _ _ _ _ hne, htip]
    dsimp only
    by_cases hh : b.height > tip.height
    · rw [if_pos hh, if_pos hh]
    · rw [if_neg hh, if_neg hh]

set_option maxRecDepth 100000 in
theorem addBlock_spec_witness :
    AddBlock stubPrims chain1 badB = some (true,
      ⟨if badB.height > tipB.height then badB.hash else chain1.lastHash,
       setKV chain1.store badB.hash badB⟩) :=
  (addBlock_spec stubPrims chain1 badB tipB (by rfl)).2.2 (by rfl) (by decide)

/-- A confirmed transaction whose output [7] is spendable. -/
def txP : Transaction := ⟨[9], [⟨[], -1, [], [1]⟩], [⟨10, [7]⟩], 0⟩

/-- The block holding `txP`. -/
def prevBlock0 : Block := ⟨0, [txP], [], [5], 0, 0, [], []⟩

/-- A one-block chain holding `txP`. -/
def chain0 : ChainState := ⟨[5], [([5], prevBlock0)]⟩

/-- A transaction that fails signature verification: its signature has
length 1 rather than 64 (its referenced output exists). -/
def txBad : Transaction := ⟨[3], [⟨[9], 0, [1], List.replicate 64 3⟩], [⟨10, [7]⟩], 0⟩

/-- A gob oracle delivering `txBad`. -/
def gob5 : GobPrims := ⟨fun r => ⟨[], r⟩, fun r => if r = [3] then some txBad else none⟩

/-- A non-mining server with three connected peers. -/
def srv5 : ServerState := ⟨chain0, [], none, [], [[1], [2], [88]]⟩

set_option maxRecDepth 40000 in
/-- Claim C5 (counterexample): the handler admits to the mempool a
transaction whose signature verification fails (its verification against the
chain returns false), because HandleTx performs no verification before
insertion. -/
theorem handleTx_unverified_insert_cex :
    VerifyTransactionChain stubPrims7 chain0 txBad 5 = some false ∧
      (HandleTx stubPrims7 gob5 0 5 srv5 [88] [3]).map
        (fun r => lookupKV r.1.mempool (hexEncode txBad.id)) = some (some txBad) := by
  decide

/-- Claim C5 (amended): the tx handler deserializes and, when the id is not
yet in the mempool, inserts the transaction WITHOUT verifying it against the
chain, then forwards inv(tx) to every currently connected peer except the
sender; signature verification happens only later, on the mining path. -/
theorem handleTx_inserts_without_verification (p : CryptoPrims) (g : GobPrims)
    (now : Int) (fuel : Nat) (s : ServerState) (peerID request : List Nat)
    (tx : Transaction)
    (hdec : DeserializeTransactionGob g (g.decodeTxMsg request).transaction = some tx)
    (hk : s.validatorPrivKey = none)
    (hnew : (lookupTx s.mempool (hexEncode tx.id)).id.isEmpty = true) :
    HandleTx p g now fuel s peerID request =
      some ({ s with mempool := setKV s.mempool (hexEncode tx.id) tx },
        (s.peers.filter (fun pr => !(pr = peerID : Bool))).map
          (fun pr => OutMsg.inv pr (strBytes "tx") [tx.id])) := by
  rw [HandleTx]
  dsimp only
  rw [hdec]
  dsimp only
  rw [hnew, hk]
  simp

set_option maxRecDepth 40000 in
theorem handleTx_inserts_without_verification_witness :
    HandleTx stubPrims7 gob5 0 5 srv5 [88] [3] =
      some ({ srv5 with mempool := setKV srv5.mempool (hexEncode txBad.id) txBad },
        (srv5.peers.filter (fun pr => !(pr = [88] : Bool))).map
          (fun pr => OutMsg.inv pr (strBytes "tx") [txBad.id])) :=
  handleTx_inserts_without_verification stubPrims7 gob5 0 5 srv5 [88] [3] txBad
    (by decide) rfl (by decide)

/-- A gob oracle on which every transaction payload fails to decode. -/
def gob6 : GobPrims := ⟨fun r => ⟨[], r⟩, fun _ => none⟩

/-- Claim C6 (counterexample): a `tx` message whose payload fails gob
decoding makes the handler log.Panic in DeserializeTransaction (modelled
`none`), crashing the node instead of only dropping the stream. -/
theorem handleTx_malformed_crash_cex :
    HandleTx stubPrims7 gob6 0 5 srv5 [88] [77] = none := by decide

/-- Claim C6 (amended): a decoding or verification failure inside the tx
handler panics (log.Panic) and brings the node down rather than terminating
only that stream: a payload that fails gob decoding panics in
DeserializeTransaction, and on a mining node a candidate whose input
references a transaction absent from the chain panics inside
VerifyTransaction during candidate collection. -/
theorem handleTx_panic_spec (p : CryptoPrims) (g : GobPrims) (now : Int)
    (fuel : Nat) (s : ServerState) (peerID request : List Nat) :
    (DeserializeTransactionGob g (g.decodeTxMsg request).transaction = none →
        HandleTx p g now fuel s peerID request = none) ∧
      ∀ tx k, DeserializeTransactionGob g (g.decodeTxMsg request).transaction = some tx →
        s.validatorPrivKey = some k → s.minerAddr.length ≠ 0 →
        collectVerified p s.chain fuel
          (if (lookupTx s.mempool (hexEncode tx.id)).id.isEmpty = true
            then setKV s.mempool (hexEncode tx.id) tx else s.mempool) = none →
        HandleTx p g now fuel s peerID request = none := by
  constructor
  · intro hnone
    rw [HandleTx]
    dsimp only
    rw [hnone]
  · intro tx k hdec hk hminer hcol
    rw [HandleTx]
    dsimp only
    rw [hdec]
    dsimp only
    rw [hk]
    dsimp only
    set mem1 := (if (lookupTx s.mempool (hexEncode tx.id)).id.isEmpty = true
      then setKV s.mempool (hexEncode tx.id) tx else s.mempool) with hmem1
    have hlen : 1 ≤ mem1.length := by
      rcases hml : mem1 with _ | ⟨e, rest⟩
      · rw [hml] at hcol
        cases hcol
      · simp
    rw [if_pos ⟨hminer, hlen⟩, hcol]

theorem handleTx_panic_spec_witness :
    HandleTx stubPrims7 gob6 0 5 srv5 [88] [55] = none :=
  (handleTx_panic_spec stubPrims7 gob6 0 5 srv5 [88] [55]).1 rfl

theorem signBlock_transactions (p : CryptoPrims) (k : PrivateKey) (b b' : Block)
    (h : SignBlock p k b = some b') : b'.transactions = b.transactions := by
  rw [SignBlock] at h
  try dsimp only at h
  split at h
  · cases h
  · split at h
    · cases h
      dsimp only
      split <;> rfl
    · cases h

theorem forgeBlock_spec (p : CryptoPrims) (now : Int) (chain : ChainState)
    (txs : List Transaction) (k : PrivateKey) (nb : Block) (c2 : ChainState)
    (h : ForgeBlock p now chain txs k = some (nb, c2)) :
    nb.transactions = txs ∧ c2 = ⟨nb.hash, setKV chain.store nb.hash nb⟩ := by
  rw [ForgeBlock] at h
  split at h
  · cases h
  · rename_i lastBlock hlast
    dsimp only at h
    split at h
    · cases h
    · rename_i nb0 hsign
      simp only [Option.some.injEq, Prod.mk.injEq] at h
      obtain ⟨rfl, rfl⟩ := h
      exact ⟨(signBlock_transactions _ _ _ _ hsign).trans rfl, rfl⟩

theorem collectVerified_mem (p : CryptoPrims) (chain : ChainState) (fuel : Nat) :
    ∀ (mem : List (List Nat × Transaction)) (txs : List Transaction),
      collectVerified p chain fuel mem = some txs →
      ∀ e ∈ mem, VerifyTransactionChain p chain e.2 fuel = some true → e.2 ∈ txs := by
  intro mem
  induction mem with
  | nil =>
    intro txs h e he
    cases he
  | cons kv rest ih =>
    obtain ⟨k0, t0⟩ := kv
    intro txs h e he hv
    rw [collectVerified] at h
    split at h
    · cases h
    · rename_i hvt
      split at h
      · cases h
      · rename_i l hl
        obtain rfl := Option.some.inj h
        rcases List.mem_cons.mp he with heq | hmem
        · subst heq
          exact List.mem_cons_self _ _
        · exact List.mem_cons_of_mem _ (ih l hl e hmem hv)
    · rename_i hvf
      rcases List.mem_cons.mp he with heq | hmem
      · subst heq
        dsimp only at hv
        rw [hv] at hvf
        cases hvf
      · exact ih txs h e hmem hv

/-- A tx spending (txP, 0). -/
def t1 : Transaction := ⟨[1], [⟨[9], 0, List.replicate 64 0, List.replicate 64 3⟩], [⟨10, [7]⟩], 0⟩

/-- A second tx spending the same (txP, 0). -/
def t2 : Transaction := ⟨[2], [⟨[9], 0, List.replicate 64 0, List.replicate 64 4⟩], [⟨10, [7]⟩], 0⟩

/-- A gob oracle delivering `t1` and `t2`. -/
def gob2 : GobPrims :=
  ⟨fun r => ⟨[], r⟩, fun r => if r = [1] then some t1 else if r = [2] then some t2 else none⟩

/-- A mining server whose mempool already holds `t1`. -/
def srv2 : ServerState :=
  ⟨chain0, GenesisAdminAddress, some ⟨1, 2, 3⟩, [(hexEncode [1], t1)], []⟩

set_option maxRecDepth 100000 in
/-- Claim C2 (counterexample): with `t1` already in the mempool, delivering
`t2` — which spends the same (txP, 0) output — makes the mining path forge a
block whose transactions are the coinbase, `t2` and `t1`: two confirmed
inputs reference the same ([9], 0), and neither double-spender is dropped. -/
theorem mining_double_spend_cex :
    ((HandleTx stubPrims7 gob2 99 5 srv2 [88] [2]).bind
      (fun r => r.1.chain.store.head?.map
        (fun kv => kv.2.transactions.map (fun t => t.vin.map (fun i => (i.txid, i.vout)))))) =
      some [[([], -1)], [([9], 0)], [([9], 0)]] ∧
    ((HandleTx stubPrims7 gob2 99 5 srv2 [88] [2]).bind
      (fun r => r.1.chain.store.head?.map (fun kv => kv.2.transactions.map (fun t => t.id)))) =
      some [List.replicate 32 0, [2], [1]] := by
  decide

/-- Claim C2 (amended): the mining path of the tx handler includes EVERY
mempool transaction that individually verifies against the chain — per-input
existence and signature checks only, with no cross-transaction conflict
check — so two candidates spending the same (prevTxId, prevVout) are both
forged into the block and both confirmed: the forged block is the coinbase
followed by the verified candidates, is stored, and the chain tip moves to
it. -/
theorem handleTx_forges_all_verified (p : CryptoPrims) (g : GobPrims) (now : Int)
    (fuel : Nat) (s : ServerState) (peerID request : List Nat) (tx cb : Transaction)
    (k : PrivateKey) (txs : List Transaction) (nb : Block) (c2 : ChainState)
    (hdec : DeserializeTransactionGob g (g.decodeTxMsg request).transaction = some tx)
    (hnew : (lookupTx s.mempool (hexEncode tx.id)).id.isEmpty = true)
    (hk : s.validatorPrivKey = some k)
    (hminer : s.minerAddr.length ≠ 0)
    (hcol : collectVerified p s.chain fuel (setKV s.mempool (hexEncode tx.id) tx) = some txs)
    (hne : txs ≠ [])
    (hcb : NewCoinbaseTX p now s.minerAddr [] 20 = some cb)
    (hforge : ForgeBlock p now s.chain (cb :: txs) k = some (nb, c2)) :
    (HandleTx p g now fuel s peerID request).map (fun r => r.1.chain) = some c2 ∧
      c2.lastHash = nb.hash ∧ lookupKV c2.store nb.hash = some nb ∧
      nb.transactions = cb :: txs ∧
      ∀ e ∈ setKV s.mempool (hexEncode tx.id) tx,
        VerifyTransactionChain p s.chain e.2 fuel = some true → e.2 ∈ nb.transactions := by
  obtain ⟨htxs, hc2⟩ := forgeBlock_spec p now s.chain (cb :: txs) k nb c2 hforge
  have hmain : (HandleTx p g now fuel s peerID request).map (fun r => r.1.chain) = some c2 := by
    rw [HandleTx]
    try dsimp only
    rw [hdec]
    try dsimp only
    simp only [if_pos hnew]
    rw [hk]
    try dsimp only
    rw [if_pos ⟨hminer, by simp [setKV]⟩, hcol]
    try dsimp only
    rw [if_neg (by simpa [List.length_eq_zero] using hne), hcb]
    try dsimp only
    rw [hforge]
    rfl
  refine ⟨hmain, ?_, ?_, htxs, ?_⟩
  · rw [hc2]
  · rw [hc2]
    exact lookup_setKV_self _ _ _
  · intro e he hv
    rw [htxs]
    exact List.mem_cons_of_mem _
      (collectVerified_mem p s.chain fuel _ txs hcol e he hv)

/-- The coinbase of the forged block of the counterexample run. -/
def cbC : Transaction := (NewCoinbaseTX stubPrims7 99 GenesisAdminAddress [] 20).getD ⟨[], [], [], 0⟩

/-- The verified candidates of the counterexample run. -/
def txsC : List Transaction := [t2, t1]

/-- The forged block of the counterexample run. -/
def nbC : Block :=
  ((ForgeBlock stubPrims7 99 chain0 (cbC :: txsC) ⟨1, 2, 3⟩).map Prod.fst).getD genesisBlock0

/-- The chain after the counterexample run. -/
def c2C : ChainState :=
  ((ForgeBlock stubPrims7 99 chain0 (cbC :: txsC) ⟨1, 2, 3⟩).map Prod.snd).getD emptyChain

set_option maxRecDepth 100000 in
theorem handleTx_forges_all_verified_witness :
    (HandleTx stubPrims7 gob2 99 5 srv2 [88] [2]).map (fun r => r.1.chain) = some c2C ∧
      c2C.lastHash = nbC.hash ∧ lookupKV c2C.store nbC.hash = some nbC ∧
      nbC.transactions = cbC :: txsC ∧
      ∀ e ∈ setKV srv2.mempool (hexEncode t2.id) t2,
        VerifyTransactionChain stubPrims7 srv2.chain e.2 5 = some true →
          e.2 ∈ nbC.transactions :=
  handleTx_forges_all_verified stubPrims7 gob2 99 5 srv2 [88] [2] t2 cbC ⟨1, 2, 3⟩ txsC
    nbC c2C (by decide) (by decide) rfl (by decide) (by decide) (by decide) (by decide)
    (by decide)

theorem lookup_delKV_ne {α : Type} (st : List (List Nat × α)) (k key : List Nat)
    (h : key ≠ k) : lookupKV (delKV st k) key = lookupKV st key := by
  rw [delKV]
  exact lookupKV_filter_ne st k key h

theorem utxoUpdateInput_untouched (st : List (List Nat × TxOutputs)) (vin : TxInput)
    (key : List Nat) (h : key ≠ utxoPrefixBytes ++ vin.txid) :
    lookupKV (utxoUpdateInput st vin) key = lookupKV st key := by
  rw [utxoUpdateInput]
  try dsimp only
  split
  · rfl
  · try dsimp only
    split
    · exact lookup_delKV_ne st _ key h
    · exact lookup_setKV_ne st _ key _ h

theorem foldl_updateInput_untouched (vins : List TxInput)
    (st : List (List Nat × TxOutputs)) (key : List Nat)
    (h : ∀ vin ∈ vins, key ≠ utxoPrefixBytes ++ vin.txid) :
    lookupKV (vins.foldl utxoUpdateInput st) key = lookupKV st key := by
  induction vins generalizing st with
  | nil => rfl
  | cons v rest ih =>
    rw [List.foldl_cons, ih _ (fun vin hv => h vin (List.mem_cons_of_mem _ hv))]
    exact utxoUpdateInput_untouched st v key (h v (List.mem_cons_self _ _))

theorem utxoUpdateTx_lookup_self (st : List (List Nat × TxOutputs)) (tx : Transaction) :
    lookupKV (utxoUpdateTx st tx) (utxoPrefixBytes ++ tx.id) = some ⟨tx.vout⟩ := by
  rw [utxoUpdateTx]
  exact lookup_setKV_self _ _ _

theorem utxoUpdateTx_untouched (st : List (List Nat × TxOutputs)) (tx : Transaction)
    (key : List Nat) (hkey : key ≠ utxoPrefixBytes ++ tx.id)
    (hvins : ∀ vin ∈ tx.vin, key ≠ utxoPrefixBytes ++ vin.txid) :
    lookupKV (utxoUpdateTx st tx) key = lookupKV st key := by
  rw [utxoUpdateTx]
  try dsimp only
  rw [lookup_setKV_ne _ _ _ _ hkey]
  split
  · exact foldl_updateInput_untouched tx.vin st key hvins
  · rfl

theorem foldl_updateTx_untouched (txs : List Transaction)
    (st : List (List Nat × TxOutputs)) (key : List Nat)
    (h : ∀ t ∈ txs, key ≠ utxoPrefixBytes ++ t.id ∧
      ∀ vin ∈ t.vin, key ≠ utxoPrefixBytes ++ vin.txid) :
    lookupKV (txs.foldl utxoUpdateTx st) key = lookupKV st key := by
  induction txs generalizing st with
  | nil => rfl
  | cons t rest ih =>
    rw [List.foldl_cons, ih _ (fun u hu => h u (List.mem_cons_of_mem _ hu))]
    exact utxoUpdateTx_untouched st t key (h t (List.mem_cons_self _ _)).1
      (h t (List.mem_cons_self _ _)).2

theorem foldl_updateTx_lookup (txs : List Transaction) :
    ∀ (st : List (List Nat × TxOutputs)),
      (txs.map (fun t => t.id)).Nodup →
      (∀ t ∈ txs, ∀ vin ∈ t.vin, ∀ u ∈ txs, vin.txid ≠ u.id) →
      ∀ tx ∈ txs,
        lookupKV (txs.foldl utxoUpdateTx st) (utxoPrefixBytes ++ tx.id) = some ⟨tx.vout⟩ := by
  induction txs with
  | nil =>
    intro st _ _ tx htx
    cases htx
  | cons t rest ih =>
    intro st hnodup hnospend tx htx
    rw [List.foldl_cons]
    rw [List.map_cons, List.nodup_cons] at hnodup
    rcases List.mem_cons.mp htx with rfl | hmem
    · rw [foldl_updateTx_untouched rest _ _ ?_]
      · exact utxoUpdateTx_lookup_self st tx
      · intro u hu
        refine ⟨fun heq => ?_, fun vin hv heq => ?_⟩
        · exact hnodup.1 (List.mem_map.mpr ⟨u, hu, (List.append_cancel_left heq).symm⟩)
        · exact hnospend u (List.mem_cons_of_mem _ hu) vin hv tx (List.mem_cons_self _ _)
            (List.append_cancel_left heq).symm
    · exact ih (utxoUpdateTx st t) hnodup.2
        (fun u hu vin hv w hw =>
          hnospend u (List.mem_cons_of_mem _ hu) vin hv w (List.mem_cons_of_mem _ hw))
        tx hmem

theorem utxoUpdateInput_isSome (st : List (List Nat × TxOutputs)) (vin : TxInput)
    (key : List Nat) (h : (lookupKV (utxoUpdateInput st vin) key).isSome) :
    (lookupKV st key).isSome := by
  rw [utxoUpdateInput] at h
  try dsimp only at h
  split at h
  · exact h
  · rename_i outs houts
    try dsimp only at h
    split at h
    · exact lookup_delKV st _ key h
    · rcases lookup_setKV_isSome _ _ _ _ h with heq | hs
      · rw [heq, houts]
        rfl
      · exact hs

theorem foldl_updateInput_isSome (vins : List TxInput) :
    ∀ (st : List (List Nat × TxOutputs)) (key : List Nat),
      (lookupKV (vins.foldl utxoUpdateInput st) key).isSome → (lookupKV st key).isSome := by
  induction vins with
  | nil =>
    intro st key h
    exact h
  | cons v rest ih =>
    intro st key h
    rw [List.foldl_cons] at h
    exact utxoUpdateInput_isSome st v key (ih _ key h)

theorem utxoUpdateTx_isSome (st : List (List Nat × TxOutputs)) (tx : Transaction)
    (key : List Nat) (h : (lookupKV (utxoUpdateTx st tx) key).isSome) :
    key = utxoPrefixBytes ++ tx.id ∨ (lookupKV st key).isSome := by
  rw [utxoUpdateTx] at h
  try dsimp only at h
  rcases lookup_setKV_isSome _ _ _ _ h with heq | hs
  · exact Or.inl heq
  · right
    split at hs
    · exact foldl_updateInput_isSome tx.vin st key hs
    · exact hs

theorem foldl_updateTx_isSome (txs : List Transaction) :
    ∀ (st : List (List Nat × TxOutputs)) (key : List Nat),
      (lookupKV (txs.foldl utxoUpdateTx st) key).isSome →
      (lookupKV st key).isSome ∨ ∃ tx ∈ txs, key = utxoPrefixBytes ++ tx.id := by
  induction txs with
  | nil =>
    intro st key h
    exact Or.inl h
  | cons t rest ih =>
    intro st key h
    rw [List.foldl_cons] at h
    rcases ih _ key h with hs | ⟨tx, htx, hk⟩
    · rcases utxoUpdateTx_isSome st t key hs with heq | hst
      · exact Or.inr ⟨t, List.mem_cons_self _ _, heq⟩
      · exact Or.inl hst
    · exact Or.inr ⟨tx, List.mem_cons_of_mem _ htx, hk⟩

theorem reindex_foldlM_keys (entries : List (List Nat × TxOutputs)) :
    ∀ (st0 st' : List (List Nat × TxOutputs)) (key : List Nat),
      entries.foldlM (fun st e =>
        (hexDecode e.1).map (fun kk => setKV st (utxoPrefixBytes ++ kk) e.2)) st0 = some st' →
      (lookupKV st' key).isSome →
      (lookupKV st0 key).isSome ∨
        ∃ e ∈ entries, ∃ d, hexDecode e.1 = some d ∧ key = utxoPrefixBytes ++ d := by
  induction entries with
  | nil =>
    intro st0 st' key h hs
    obtain rfl := Option.some.inj h
    exact Or.inl hs
  | cons e rest ih =>
    intro st0 st' key h hs
    rw [List.foldlM_cons] at h
    rcases hd : hexDecode e.1 with _ | d
    · rw [hd] at h
      cases h
    · rw [hd] at h
      have h' : rest.foldlM (fun st e =>
          (hexDecode e.1).map (fun kk => setKV st (utxoPrefixBytes ++ kk) e.2))
          (setKV st0 (utxoPrefixBytes ++ d) e.2) = some st' := h
      rcases ih _ st' key h' hs with hs0 | ⟨e2, he2, d2, hd2, hk⟩
      · rcases lookup_setKV_isSome _ _ _ _ hs0 with heq | hss
        · exact Or.inr ⟨e, List.mem_cons_self _ _, d, hd, heq⟩
        · exact Or.inl hss
      · exact Or.inr ⟨e2, List.mem_cons_of_mem _ he2, d2, hd2, hk⟩

/-- A two-output coinbase transaction with the one-byte id 0xab. -/
def txU : Transaction := ⟨[171], [⟨[], -1, [], [1]⟩], [⟨5, [7]⟩, ⟨6, [8]⟩], 0⟩

/-- A block carrying `txU`. -/
def blkU : Block := ⟨0, [txU], [], [9], 1, 0, [], []⟩

/-- A one-block chain holding `blkU`. -/
def chainU : ChainState := ⟨[9], [([9], blkU)]⟩

/-- The FindUTXO entries of `chainU`. -/
def entriesU : List (List Nat × TxOutputs) := (FindUTXO chainU 1).getD []

/-- The reindexed UTXO store of `chainU`. -/
def stU : List (List Nat × TxOutputs) := (UTXOReindex chainU 1).getD []

set_option maxRecDepth 40000 in
/-- Claim C3 (counterexample): updating an empty index with a block holding
the two-output transaction `txU` (id 0xab) produces a SINGLE key — the
prefix followed by the RAW id bytes — whose value is the whole output list,
and neither spec-shaped key "utxo-ab-0" nor "utxo-ab-1" (hex id and decimal
output index) is present. -/
theorem utxo_key_shape_cex :
    UTXOUpdate blkU [] = [(utxoPrefixBytes ++ [171], ⟨[⟨5, [7]⟩, ⟨6, [8]⟩]⟩)] ∧
      lookupKV (UTXOUpdate blkU []) (strBytes "utxo-ab-0") = none ∧
      lookupKV (UTXOUpdate blkU []) (strBytes "utxo-ab-1") = none := by
  decide

/-- Claim C3 (amended): the persistent UTXO index keeps ONE key per
transaction with unspent outputs, of the form "utxo-" followed by the RAW
transaction id bytes (no hex, no separator, no output index), mapping to the
serialized LIST of that transaction's outputs: update(block) writes such a
key for every transaction of the block (when ids are distinct and the block
spends no output of its own transactions) and creates no key of any other
shape beyond those already present; reindex() writes exactly keys of the
form "utxo-" followed by the hex-decoded FindUTXO key. -/
theorem utxo_index_spec (block : Block) (st : List (List Nat × TxOutputs))
    (chain : ChainState) (fuel : Nat) (entries st' : List (List Nat × TxOutputs))
    (hnodup : (block.transactions.map (fun t => t.id)).Nodup)
    (hnospend : ∀ t ∈ block.transactions, ∀ vin ∈ t.vin, ∀ u ∈ block.transactions,
      vin.txid ≠ u.id)
    (hFU : FindUTXO chain fuel = some entries)
    (hR : UTXOReindex chain fuel = some st') :
    (∀ tx ∈ block.transactions,
        lookupKV (UTXOUpdate block st) (utxoPrefixBytes ++ tx.id) = some ⟨tx.vout⟩) ∧
      (∀ key, (lookupKV (UTXOUpdate block st) key).isSome →
        (lookupKV st key).isSome ∨ ∃ tx ∈ block.transactions, key = utxoPrefixBytes ++ tx.id) ∧
      ∀ key, (lookupKV st' key).isSome →
        ∃ e ∈ entries, ∃ d, hexDecode e.1 = some d ∧ key = utxoPrefixBytes ++ d := by
  refine ⟨?_, ?_, ?_⟩
  · exact foldl_updateTx_lookup block.transactions st hnodup hnospend
  · exact fun key h => foldl_updateTx_isSome block.transactions st key h
  · intro key h
    rw [UTXOReindex, hFU] at hR
    have hR' : entries.foldlM (fun st e =>
        (hexDecode e.1).map (fun kk => setKV st (utxoPrefixBytes ++ kk) e.2)) [] = some st' := hR
    rcases reindex_foldlM_keys entries [] st' key hR' h with h0 | hfound
    · cases h0
    · exact hfound

set_option maxRecDepth 40000 in
theorem utxo_index_spec_witness :
    (∀ tx ∈ blkU.transactions,
        lookupKV (UTXOUpdate blkU []) (utxoPrefixBytes ++ tx.id) = some ⟨tx.vout⟩) ∧
      (∀ key, (lookupKV (UTXOUpdate blkU []) key).isSome →
        (lookupKV ([] : List (List Nat × TxOutputs)) key).isSome ∨
          ∃ tx ∈ blkU.transactions, key = utxoPrefixBytes ++ tx.id) ∧
      ∀ key, (lookupKV stU key).isSome →
        ∃ e ∈ entriesU, ∃ d, hexDecode e.1 = some d ∧ key = utxoPrefixBytes ++ d :=
  utxo_index_spec blkU [] chainU 1 entriesU stU (by decide) (by decide) (by decide) (by decide)

end Sole
